import Mathlib

/-!
Verification development for the blazing_agi FastAGI server framework.

Rust strings (`&str` / `String`) are modelled as lists of unicode scalar
values (`List Char`).  Where the Rust code indexes by *bytes* (slicing,
`len()`), the embedding carries explicit UTF-8 byte lengths, and a byte
slice that would panic on a non-boundary is modelled as `none`.
Fallible Rust code (`Result`) is modelled with `Except`; a Rust panic is
modelled as `none` / a dedicated `panic` constructor of a result type.
-/

namespace BlazingAGI

/-- Rust strings modelled as lists of unicode scalar values. -/
abbrev Str := List Char

/-- Turn a Lean string literal into the `List Char` model. -/
def strL (s : String) : Str := s.data

/-- Number of bytes of the UTF-8 encoding of one scalar value. -/
def charBytes (c : Char) : Nat :=
  if c.toNat < 0x80 then 1
  else if c.toNat < 0x800 then 2
  else if c.toNat < 0x10000 then 3
  else 4

/-- UTF-8 byte length of a string, Rust's `str::len`. -/
def bytesLen : Str → Nat
  | [] => 0
  | c :: t => charBytes c + bytesLen t

/-- Rust byte slicing `s[n..]`: `none` models the char-boundary panic. -/
def byteDrop : Nat → Str → Option Str
  | 0, s => some s
  | _ + 1, [] => none
  | n + 1, c :: t =>
      if n + 1 < charBytes c then none
      else byteDrop (n + 1 - charBytes c) t

/-- Rust byte slicing `s[0..n]`: `none` models the char-boundary panic. -/
def byteTake : Nat → Str → Option Str
  | 0, _ => some []
  | _ + 1, [] => none
  | n + 1, c :: t =>
      if n + 1 < charBytes c then none
      else (byteTake (n + 1 - charBytes c) t).map (c :: ·)

/-- Rust `hay.starts_with(pat)`; first argument is the pattern. -/
def startsWithL : Str → Str → Bool
  | [], _ => true
  | _ :: _, [] => false
  | a :: t, b :: u => a == b && startsWithL t u

/-- Rust `char::is_whitespace` (the Unicode White_Space property). -/
def isRustWhitespace (c : Char) : Bool :=
  let n := c.toNat
  (0x9 ≤ n && n ≤ 0xD) || n = 0x20 || n = 0x85 || n = 0xA0 || n = 0x1680 ||
  (0x2000 ≤ n && n ≤ 0x200A) || n = 0x2028 || n = 0x2029 || n = 0x202F ||
  n = 0x205F || n = 0x3000

/-- Rust `str::trim_end`. -/
def trimEndL (s : Str) : Str :=
  ((s.reverse.dropWhile isRustWhitespace)).reverse

/-- Split a string at every occurrence of a separator character,
Rust `str::split(c)`.  The result is always non-empty. -/
def splitChar (sep : Char) : Str → List Str
  | [] => [[]]
  | c :: t =>
      let r := splitChar sep t
      if c = sep then [] :: r
      else (c :: r.headD []) :: r.tail

end BlazingAGI

namespace BlazingAGI

/-- Break a string at the first occurrence of the separator substring:
`some (before, after)` with the separator removed, `none` if absent. -/
def breakSub (sep : Str) : Str → Option (Str × Str)
  | [] => if sep = [] then some ([], []) else none
  | c :: t =>
      if startsWithL sep (c :: t) then some ([], (c :: t).drop sep.length)
      else match breakSub sep t with
           | none => none
           | some (a, b) => some (c :: a, b)

/-- Fuelled worker for `splitSub`. -/
def splitSubF (sep : Str) : Nat → Str → List Str
  | 0, s => [s]
  | f + 1, s =>
      match breakSub sep s with
      | none => [s]
      | some (a, b) => a :: splitSubF sep f b

/-- Rust `str::split(sep)` for a substring separator. -/
def splitSub (sep : Str) (s : Str) : List Str := splitSubF sep (s.length + 1) s

/-- Value of an ASCII decimal digit. -/
def digitVal (c : Char) : Option Nat :=
  if 48 ≤ c.toNat && c.toNat ≤ 57 then some (c.toNat - 48) else none

/-- Accumulate decimal digits; `none` on any non-digit. -/
def parseDigitsAux (acc : Nat) : Str → Option Nat
  | [] => some acc
  | c :: t =>
      match digitVal c with
      | none => none
      | some d => parseDigitsAux (acc * 10 + d) t

/-- Rust unsigned integer parsing shape: optional leading `+`, then at
least one ASCII digit and nothing else.  No range bound yet. -/
def parseNatRust : Str → Option Nat
  | [] => none
  | c :: t =>
      if c = '+' then
        match t with
        | [] => none
        | _ :: _ => parseDigitsAux 0 t
      else parseDigitsAux 0 (c :: t)

/-- Rust `str::parse::<u16>`: `none` on malformed input or overflow. -/
def parseU16 (s : Str) : Option Nat :=
  match parseNatRust s with
  | some v => if v < 65536 then some v else none
  | none => none

/-- Rust `str::parse::<u8>`: `none` on malformed input or overflow. -/
def parseU8 (s : Str) : Option Nat :=
  match parseNatRust s with
  | some v => if v < 256 then some v else none
  | none => none

/-- Rust `str::parse::<u64>`: `none` on malformed input or overflow. -/
def parseU64 (s : Str) : Option Nat :=
  match parseNatRust s with
  | some v => if v < 18446744073709551616 then some v else none
  | none => none

/-- Rust `str::parse::<i32>`: optional sign, digits, 32-bit range check. -/
def parseI32 : Str → Option Int
  | [] => none
  | '-' :: t =>
      (match t with
       | [] => none
       | _ :: _ =>
         match parseDigitsAux 0 t with
         | some v => if v ≤ 2147483648 then some (-(v : Int)) else none
         | none => none)
  | '+' :: t =>
      (match t with
       | [] => none
       | _ :: _ =>
         match parseDigitsAux 0 t with
         | some v => if v < 2147483648 then some ((v : Int)) else none
         | none => none)
  | c :: t =>
      match parseDigitsAux 0 (c :: t) with
      | some v => if v < 2147483648 then some ((v : Int)) else none
      | none => none

/-- Decidable equality on `Except`, for evaluating concrete parses. -/
instance {e a : Type} [DecidableEq e] [DecidableEq a] : DecidableEq (Except e a) :=
  fun x y =>
    match x, y with
    | .ok v, .ok w => decidable_of_iff (v = w) (by simp)
    | .error v, .error w => decidable_of_iff (v = w) (by simp)
    | .ok _, .error _ => isFalse (fun h => Except.noConfusion h)
    | .error _, .ok _ => isFalse (fun h => Except.noConfusion h)

/-- The parse-error type `AGIParseError` of `src/agiparse.rs`. -/
inductive AGIParseError where
  | NoValue (line : Str)
  | PriorityUnparsable (v : Str)
  | ThreadIdUnparsable (v : Str)
  | EnhancedUnparsable (v : Str)
  | UnknownArg (a : Str)
  | CustomArgNumberUnparsable (a : Str)
  | DuplicateCustomArg (a : Str)
  | VariableMissing (v : Str)
  | NoStatusCode (s : Str)
  | StatusCodeUnparsable (s : Str)
  | NoResult (s : Str)
  | ResultUnparsable (s : Str)
  | NoBytes
  | NotUtf8
  | StatusWithoutNewline
  | StatusDoesNotExist (code : Nat)
  | ReadError
  | NetworkStartAfterOtherMessage
deriving DecidableEq, Repr

/-- The generic status type `AGIStatusGeneric` of `src/agiparse.rs`. -/
inductive AGIStatusGeneric where
  | Ok (result : Str) (opData : Option Str)
  | Invalid
  | DeadChannel
  | EndUsage
deriving DecidableEq, Repr

/-- `impl FromStr for AGIStatusGeneric` (src/agiparse.rs:154-182):
trim the end, split on spaces, parse the code as `u16`, require the
second token to start with `result=`, take an optional third token as
operational data, then accept exactly the codes 200/510/511/520. -/
def parseStatusGeneric (s : Str) : Except AGIParseError AGIStatusGeneric :=
  match splitChar ' ' (trimEndL s) with
  | [] => .error (.NoStatusCode s)
  | codeStr :: rest =>
      match parseU16 codeStr with
      | none => .error (.StatusCodeUnparsable s)
      | some code =>
          match rest with
          | [] => .error (.NoResult s)
          | resultPart :: rest2 =>
              if startsWithL (strL ("result=")) resultPart then
                let result := resultPart.drop 7
                let opData := rest2.head?
                if code = 200 then .ok (.Ok result opData)
                else if code = 510 then .ok .Invalid
                else if code = 511 then .ok .DeadChannel
                else if code = 520 then .ok .EndUsage
                else .error (.StatusDoesNotExist code)
              else .error (.ResultUnparsable s)

example : parseStatusGeneric (strL ("200 result=1 done\n")) =
    .ok (.Ok (strL ("1")) (some (strL ("done")))) := by decide

example : parseStatusGeneric (strL ("200 result=1 \n")) =
    .ok (.Ok (strL ("1")) none) := by decide

example : parseStatusGeneric (strL ("2f00 result=1 \n")) =
    .error (.StatusCodeUnparsable (strL ("2f00 result=1 \n"))) := by decide

example : parseStatusGeneric (strL (" \n")) =
    .error (.StatusCodeUnparsable (strL (" \n"))) := by decide

example : parseStatusGeneric (strL ("404 \n")) =
    .error (.NoResult (strL ("404 \n"))) := by decide

end BlazingAGI

namespace BlazingAGI

theorem ws_newline : isRustWhitespace '\n' = true := by decide

theorem trimEnd_append_newline (x : Str) :
    trimEndL (x ++ ['\n']) = trimEndL x := by
  simp [trimEndL, List.dropWhile, ws_newline]

theorem trimEnd_no_ws (x y : Str) (hy : y ≠ [])
    (hws : ∀ c ∈ y, isRustWhitespace c = false) :
    trimEndL (x ++ y) = x ++ y := by
  obtain ⟨c, t, hct⟩ : ∃ c t, y.reverse = c :: t := by
    cases hyr : y.reverse with
    | nil => exact absurd (by simpa using congrArg List.reverse hyr) hy
    | cons c t => exact ⟨c, t, rfl⟩
  have hc : c ∈ y := by
    have : c ∈ y.reverse := by rw [hct]; exact List.mem_cons_self c t
    simpa using this
  have hstop : (x ++ y).reverse.dropWhile isRustWhitespace = (x ++ y).reverse := by
    rw [List.reverse_append, hct]
    simp [List.dropWhile, hws c hc]
  rw [trimEndL, hstop, List.reverse_reverse]

theorem splitChar_sepfree (sep : Char) (a : Str)
    (h : ∀ c ∈ a, c ≠ sep) : splitChar sep a = [a] := by
  induction a with
  | nil => rfl
  | cons c t ih =>
      have hne : c ≠ sep := h c (List.mem_cons_self c t)
      have ht : splitChar sep t = [t] := ih (fun x hx => h x (List.mem_cons_of_mem c hx))
      simp [splitChar, ht, hne]

theorem splitChar_cons_sep (sep : Char) (a r : Str)
    (h : ∀ c ∈ a, c ≠ sep) :
    splitChar sep (a ++ sep :: r) = a :: splitChar sep r := by
  induction a with
  | nil => simp [splitChar]
  | cons c t ih =>
      have hne : c ≠ sep := h c (List.mem_cons_self c t)
      have ht := ih (fun x hx => h x (List.mem_cons_of_mem c hx))
      simp [splitChar, ht, hne]

theorem not_ws_of_digit_range (c : Char) (h1 : 48 ≤ c.toNat) (h2 : c.toNat ≤ 57) :
    isRustWhitespace c = false := by
  simp only [isRustWhitespace, Bool.or_eq_false_iff, Bool.and_eq_false_iff,
    decide_eq_false_iff_not]
  omega

theorem parseDigitsAux_digits (l : Str) :
    ∀ acc v, parseDigitsAux acc l = some v →
      ∀ ch ∈ l, 48 ≤ ch.toNat ∧ ch.toNat ≤ 57 := by
  induction l with
  | nil => intro acc v _ ch hch; cases hch
  | cons c t ih =>
      intro acc v hp ch hch
      rcases hd : digitVal c with _ | d
      · rw [parseDigitsAux, hd] at hp; cases hp
      · rw [parseDigitsAux, hd] at hp
        have hcd : 48 ≤ c.toNat ∧ c.toNat ≤ 57 := by
          by_contra hcon
          simp only [digitVal] at hd
          rw [if_neg] at hd
          · cases hd
          · simp only [Bool.and_eq_true, decide_eq_true_eq]
            omega
        rcases List.mem_cons.mp hch with rfl | hch'
        · exact hcd
        · exact ih _ _ hp ch hch'

theorem parseDigitsAux_safe (l : Str) (acc v : Nat) (hl : parseDigitsAux acc l = some v) :
    ∀ ch ∈ l, ch ≠ ' ' ∧ isRustWhitespace ch = false := by
  intro ch hch
  obtain ⟨h1, h2⟩ := parseDigitsAux_digits l acc v hl ch hch
  refine ⟨?_, not_ws_of_digit_range ch h1 h2⟩
  intro hsp
  rw [hsp] at h1
  exact absurd h1 (by decide)

theorem parseNatRust_safe (c : Str) (v : Nat) (hw : parseNatRust c = some v) :
    ∀ ch ∈ c, ch ≠ ' ' ∧ isRustWhitespace ch = false := by
  cases c with
  | nil => intro ch hch; cases hch
  | cons c0 t =>
      by_cases hplus : c0 = '+'
      · subst hplus
        simp only [parseNatRust, if_pos rfl] at hw
        cases t with
        | nil => cases hw
        | cons x t' =>
            intro ch hch
            rcases List.mem_cons.mp hch with rfl | hch'
            · exact ⟨by decide, by decide⟩
            · exact parseDigitsAux_safe _ _ _ hw ch hch'
      · simp only [parseNatRust] at hw
        rw [if_neg hplus] at hw
        exact parseDigitsAux_safe _ _ _ hw

theorem parseU16_chars (c : Str) (v : Nat) (h : parseU16 c = some v) :
    ∀ ch ∈ c, ch ≠ ' ' ∧ isRustWhitespace ch = false := by
  rcases hp : parseNatRust c with _ | w
  · rw [parseU16, hp] at h; cases h
  · exact parseNatRust_safe c w hp

theorem parseU16_bound (c : Str) (v : Nat) (h : parseU16 c = some v) : v < 65536 := by
  rcases hp : parseNatRust c with _ | w
  · rw [parseU16, hp] at h; cases h
  · simp only [parseU16, hp] at h
    by_cases hb : w < 65536
    · rw [if_pos hb] at h; injection h with h; omega
    · rw [if_neg hb] at h; cases h

theorem startsWithL_self_append (p rest : Str) :
    startsWithL p (p ++ rest) = true := by
  induction p with
  | nil => rfl
  | cons a t ih => simp [startsWithL, ih]

theorem resulteq_chars :
    ∀ ch ∈ strL ("result="), ch ≠ ' ' ∧ isRustWhitespace ch = false := by decide

theorem space_result_split : strL (" result=") = ' ' :: strL ("result=") := by rfl

theorem drop7_resulteq (r : Str) : (strL ("result=") ++ r).drop 7 = r := by rfl

theorem strL_nl : strL ("\n") = ['\n'] := rfl

/-- Helper: the rendered status line trimmed and split on spaces, without
operational data. -/
theorem statusLine_tokens_none (c r : Str) (v : Nat)
    (hc : parseU16 c = some v)
    (hr : ∀ ch ∈ r, ch ≠ ' ' ∧ isRustWhitespace ch = false) :
    splitChar ' ' (trimEndL (c ++ strL (" result=") ++ r ++ strL ("\n"))) =
      [c, strL ("result=") ++ r] := by
  have hassoc : c ++ strL (" result=") ++ r ++ strL ("\n")
      = ((c ++ [' ']) ++ (strL ("result=") ++ r)) ++ ['\n'] := by
    rw [space_result_split, strL_nl]; simp
  rw [hassoc, trimEnd_append_newline]
  have hy : ∀ ch ∈ strL ("result=") ++ r, isRustWhitespace ch = false := by
    intro ch hch
    rcases List.mem_append.mp hch with h | h
    · exact (resulteq_chars ch h).2
    · exact (hr ch h).2
  rw [trimEnd_no_ws _ _ (by simp [strL]) hy]
  have hnosp : ∀ ch ∈ strL ("result=") ++ r, ch ≠ ' ' := by
    intro ch hch
    rcases List.mem_append.mp hch with h | h
    · exact (resulteq_chars ch h).1
    · exact (hr ch h).1
  have : (c ++ [' ']) ++ (strL ("result=") ++ r) = c ++ ' ' :: (strL ("result=") ++ r) := by
    simp
  rw [this, splitChar_cons_sep _ _ _ (fun ch hch => (parseU16_chars c v hc ch hch).1),
    splitChar_sepfree _ _ hnosp]

/-- Helper: the rendered status line trimmed and split on spaces, with
operational data. -/
theorem statusLine_tokens_some (c r od : Str) (v : Nat)
    (hc : parseU16 c = some v)
    (hr : ∀ ch ∈ r, ch ≠ ' ' ∧ isRustWhitespace ch = false)
    (hodne : od ≠ [])
    (hod : ∀ ch ∈ od, ch ≠ ' ' ∧ isRustWhitespace ch = false) :
    splitChar ' ' (trimEndL (c ++ strL (" result=") ++ r ++ (' ' :: od) ++ strL ("\n"))) =
      [c, strL ("result=") ++ r, od] := by
  have hassoc : c ++ strL (" result=") ++ r ++ (' ' :: od) ++ strL ("\n")
      = ((c ++ ' ' :: (strL ("result=") ++ r) ++ [' ']) ++ od) ++ ['\n'] := by
    rw [space_result_split, strL_nl]; simp
  rw [hassoc, trimEnd_append_newline,
    trimEnd_no_ws _ _ hodne (fun ch hch => (hod ch hch).2)]
  have hmid : c ++ ' ' :: (strL ("result=") ++ r) ++ [' '] ++ od
      = c ++ ' ' :: ((strL ("result=") ++ r) ++ ' ' :: od) := by simp
  rw [hmid, splitChar_cons_sep _ _ _ (fun ch hch => (parseU16_chars c v hc ch hch).1)]
  have hnosp : ∀ ch ∈ strL ("result=") ++ r, ch ≠ ' ' := by
    intro ch hch
    rcases List.mem_append.mp hch with h | h
    · exact (resulteq_chars ch h).1
    · exact (hr ch h).1
  rw [splitChar_cons_sep _ _ _ hnosp,
    splitChar_sepfree _ _ (fun ch hch => (hod ch hch).1)]

/-- C4: parsing a status line `<code> result=<result>[ <opdata>]` accepts
exactly the codes 200, 510, 511 and 520, producing `Ok(result, opdata)`,
`Invalid`, `DeadChannel` and `EndUsage` respectively, and fails with
`StatusDoesNotExist` for every other code that parses as a `u16`. -/
theorem C4_status_code_closure (c r : Str) (o : Option Str) (v : Nat)
    (hc : parseU16 c = some v)
    (hr : ∀ ch ∈ r, ch ≠ ' ' ∧ isRustWhitespace ch = false)
    (ho : ∀ od, o = some od → od ≠ [] ∧ ∀ ch ∈ od, ch ≠ ' ' ∧ isRustWhitespace ch = false) :
    parseStatusGeneric
        (c ++ strL (" result=") ++ r ++ (o.elim [] (fun od => ' ' :: od)) ++ strL ("\n")) =
      (if v = 200 then .ok (.Ok r o)
       else if v = 510 then .ok .Invalid
       else if v = 511 then .ok .DeadChannel
       else if v = 520 then .ok .EndUsage
       else .error (.StatusDoesNotExist v)) := by
  rcases o with _ | od
  · have hline : c ++ strL (" result=") ++ r ++
        ((none : Option Str).elim [] (fun od => ' ' :: od)) ++ strL ("\n") =
        c ++ strL (" result=") ++ r ++ strL ("\n") := by simp
    rw [hline, parseStatusGeneric, statusLine_tokens_none c r v hc hr]
    simp only [hc, startsWithL_self_append, drop7_resulteq, if_true]
    rfl
  · obtain ⟨hodne, hod⟩ := ho od rfl
    have hline : c ++ strL (" result=") ++ r ++
        ((some od).elim [] (fun od => ' ' :: od)) ++ strL ("\n") =
        c ++ strL (" result=") ++ r ++ (' ' :: od) ++ strL ("\n") := by simp
    rw [hline, parseStatusGeneric, statusLine_tokens_some c r od v hc hr hodne hod]
    simp only [hc, startsWithL_self_append, drop7_resulteq, if_true]
    rfl

/-- Witness for C4 at concrete inputs: code 200 is accepted, code 404 is
rejected with `StatusDoesNotExist 404`. -/
theorem C4_status_code_closure_witness :
    parseStatusGeneric (strL ("404") ++ strL (" result=") ++ strL ("1") ++
        (Option.elim none [] (fun od => ' ' :: od)) ++ strL ("\n")) =
      .error (.StatusDoesNotExist 404) ∧
    parseStatusGeneric (strL ("200") ++ strL (" result=") ++ strL ("1") ++
        (Option.elim (some (strL ("done"))) [] (fun od => ' ' :: od)) ++ strL ("\n")) =
      .ok (.Ok (strL ("1")) (some (strL ("done")))) := by
  constructor
  · have h := C4_status_code_closure (strL ("404")) (strL ("1")) none 404
      (by decide) (by decide) (by intro od hod; cases hod)
    simpa using h
  · have h := C4_status_code_closure (strL ("200")) (strL ("1")) (some (strL ("done"))) 200
      (by decide) (by decide)
      (by intro od hod; injection hod with hod; subst hod; exact ⟨by decide, by decide⟩)
    simpa using h

/-- A parsed URL, keeping exactly the structure the program consumes:
the scheme, the host part and the path segments (`Url::path_segments`,
`none` when the URL has no `/`-initial path). -/
structure UrlM where
  scheme : Str
  host : Str
  pathSegments : Option (List Str)
deriving DecidableEq, Repr

/-- The request type `AGIRequestType` of `src/agiparse.rs`. -/
inductive AGIRequestType where
  | File (path : Str)
  | FastAGI (url : UrlM)
deriving DecidableEq, Repr

/-- `impl FromStr for AGIRequestType` (src/agiparse.rs:191-203): try to
parse as a URL, on failure fall back to a file path; never fails.  The
URL parser of the external `url` crate is abstracted as a parameter. -/
def reqFromStr (urlParse : Str → Option UrlM) (s : Str) :
    Except AGIParseError AGIRequestType :=
  match urlParse s with
  | some u => .ok (.FastAGI u)
  | none => .ok (.File s)

/-- Models the `url` crate's `Url::parse` on the URL shapes exercised in
this development: `scheme://host[/path]` with an alphabetic scheme parses;
a string without a scheme separator is rejected (RelativeUrlWithoutBase),
so e.g. `/tmp/agi.sh` does not parse as a URL. -/
def urlParseSimple (s : Str) : Option UrlM :=
  match breakSub (strL ("://")) s with
  | none => none
  | some (sch, rest) =>
      if sch ≠ [] && sch.all Char.isAlpha then
        match breakSub (strL ("/")) rest with
        | none => some ⟨sch, rest, none⟩
        | some (host, path) => some ⟨sch, host, some (splitChar '/' path)⟩
      else none

/-- Parse the value of the `agi_enhanced` line (src/agiparse.rs:218-226). -/
def enhancedStatus (v : Str) : Except AGIParseError Bool :=
  if v = strL ("0.0") then .ok false
  else if v = strL ("1.0") then .ok true
  else .error (.EnhancedUnparsable v)

/-- Membership test on the custom-args collection. -/
def caContains (k : Nat) : List (Nat × Str) → Bool
  | [] => false
  | (k', _) :: t => k == k' || caContains k t

/-- Key-sorted insertion into the custom-args collection.  The Rust
`HashMap<u8, String>` is modelled as a key-sorted association list, so
that extensionally equal maps are equal lists. -/
def caInsert (k : Nat) (v : Str) : List (Nat × Str) → List (Nat × Str)
  | [] => [(k, v)]
  | (k', v') :: t =>
      if k < k' then (k, v) :: (k', v') :: t
      else if k = k' then (k, v) :: t
      else (k', v') :: caInsert k v t

/-- Lookup in the custom-args collection, `HashMap::get`. -/
def caGet (k : Nat) : List (Nat × Str) → Option Str
  | [] => none
  | (k', v') :: t => if k = k' then some v' else caGet k t

/-- The variable dump `AGIVariableDump` of `src/agiparse.rs` (the AGI
request record sent by Asterisk). -/
structure AGIVariableDump where
  network_script : Str
  request : AGIRequestType
  channel : Str
  language : Str
  channel_type : Str
  uniqueid : Str
  version : Str
  callerid : Str
  calleridname : Str
  callingpres : Str
  callingani2 : Str
  callington : Str
  callingtns : Str
  dnid : Str
  rdnis : Str
  context : Str
  extension : Str
  priority : Nat
  enhanced : Bool
  accountcode : Str
  threadid : Nat
  custom_args : List (Nat × Str)
deriving DecidableEq, Repr

/-- Accumulator of optional fields during variable-dump parsing, the
`let mut ... : Option<_> = None` block of `AGIVariableDump::from_str`. -/
structure VDAcc where
  network_script : Option Str := none
  request : Option AGIRequestType := none
  channel : Option Str := none
  language : Option Str := none
  channel_type : Option Str := none
  uniqueid : Option Str := none
  version : Option Str := none
  callerid : Option Str := none
  calleridname : Option Str := none
  callingpres : Option Str := none
  callingani2 : Option Str := none
  callington : Option Str := none
  callingtns : Option Str := none
  dnid : Option Str := none
  rdnis : Option Str := none
  context : Option Str := none
  extension : Option Str := none
  priority : Option Nat := none
  enhanced : Option Bool := none
  accountcode : Option Str := none
  threadid : Option Nat := none
  custom_args : Option (List (Nat × Str)) := none

/-- The empty accumulator. -/
def vdAccEmpty : VDAcc := {}

/-- Dispatch of one `name: value` pair of a variable dump to the matching
field (the `match name` of `AGIVariableDump::from_str`,
src/agiparse.rs:338-437). -/
def vdDispatch (urlParse : Str → Option UrlM) (acc : VDAcc) (name value : Str) :
    Except AGIParseError VDAcc :=
  if name = strL ("agi_network_script") then .ok { acc with network_script := some value }
  else if name = strL ("agi_request") then
    match reqFromStr urlParse value with
    | .ok r => .ok { acc with request := some r }
    | .error e => .error e
  else if name = strL ("agi_channel") then .ok { acc with channel := some value }
  else if name = strL ("agi_language") then .ok { acc with language := some value }
  else if name = strL ("agi_type") then .ok { acc with channel_type := some value }
  else if name = strL ("agi_uniqueid") then .ok { acc with uniqueid := some value }
  else if name = strL ("agi_version") then .ok { acc with version := some value }
  else if name = strL ("agi_callerid") then .ok { acc with callerid := some value }
  else if name = strL ("agi_calleridname") then .ok { acc with calleridname := some value }
  else if name = strL ("agi_callingpres") then .ok { acc with callingpres := some value }
  else if name = strL ("agi_callingani2") then .ok { acc with callingani2 := some value }
  else if name = strL ("agi_callington") then .ok { acc with callington := some value }
  else if name = strL ("agi_callingtns") then .ok { acc with callingtns := some value }
  else if name = strL ("agi_dnid") then .ok { acc with dnid := some value }
  else if name = strL ("agi_rdnis") then .ok { acc with rdnis := some value }
  else if name = strL ("agi_context") then .ok { acc with context := some value }
  else if name = strL ("agi_extension") then .ok { acc with extension := some value }
  else if name = strL ("agi_priority") then
    match parseU16 value with
    | some p => .ok { acc with priority := some p }
    | none => .error (.PriorityUnparsable value)
  else if name = strL ("agi_enhanced") then
    match enhancedStatus value with
    | .ok b => .ok { acc with enhanced := some b }
    | .error e => .error e
  else if name = strL ("agi_accountcode") then .ok { acc with accountcode := some value }
  else if name = strL ("agi_threadid") then
    match parseU64 value with
    | some p => .ok { acc with threadid := some p }
    | none => .error (.ThreadIdUnparsable value)
  else if startsWithL (strL ("agi_arg_")) name then
    match parseU8 (name.drop 8) with
    | none => .error (.CustomArgNumberUnparsable name)
    | some n =>
        match acc.custom_args with
        | none => .ok { acc with custom_args := some [(n, value)] }
        | some m =>
            if caContains n m then .error (.DuplicateCustomArg name)
            else .ok { acc with custom_args := some (caInsert n value m) }
  else .error (.UnknownArg name)

/-- Process one non-empty dump line: split at `": "`, take the name and
the end-trimmed value (later `": "` pieces of the line are dropped, as in
the Rust iterator usage). -/
def vdLine (urlParse : Str → Option UrlM) (acc : VDAcc) (line : Str) :
    Except AGIParseError VDAcc :=
  match splitSub (strL (": ")) line with
  | [] => .ok acc
  | [_] => .error (.NoValue line)
  | name :: value0 :: _ => vdDispatch urlParse acc name (trimEndL value0)

/-- The line loop of `AGIVariableDump::from_str`: stop at the first empty
line, otherwise feed each line to the dispatcher. -/
def vdLoop (urlParse : Str → Option UrlM) (acc : VDAcc) :
    List Str → Except AGIParseError VDAcc
  | [] => .ok acc
  | line :: rest =>
      if line = [] then .ok acc
      else
        match vdLine urlParse acc line with
        | .error e => .error e
        | .ok acc' => vdLoop urlParse acc' rest

/-- Require a field to have been seen, `ok_or(VariableMissing(..))`. -/
def reqField {α : Type} (f : Option α) (nm : Str) : Except AGIParseError α :=
  match f with
  | some v => .ok v
  | none => .error (.VariableMissing nm)

/-- Build the final dump from the accumulator, checking the required
fields in source order (src/agiparse.rs:440-471). -/
def vdBuild (acc : VDAcc) : Except AGIParseError AGIVariableDump := do
  let network_script ← reqField acc.network_script (strL ("network_script"))
  let request ← reqField acc.request (strL ("request"))
  let channel ← reqField acc.channel (strL ("channel"))
  let language ← reqField acc.language (strL ("language"))
  let channel_type ← reqField acc.channel_type (strL ("channel_type"))
  let uniqueid ← reqField acc.uniqueid (strL ("uniqueid"))
  let version ← reqField acc.version (strL ("version"))
  let callerid ← reqField acc.callerid (strL ("callerid"))
  let calleridname ← reqField acc.calleridname (strL ("calleridname"))
  let callingpres ← reqField acc.callingpres (strL ("callingpres"))
  let callingani2 ← reqField acc.callingani2 (strL ("callingani2"))
  let callington ← reqField acc.callington (strL ("callington"))
  let callingtns ← reqField acc.callingtns (strL ("callingtns"))
  let dnid ← reqField acc.dnid (strL ("dnid"))
  let rdnis ← reqField acc.rdnis (strL ("rdnis"))
  let context ← reqField acc.context (strL ("context"))
  let extension ← reqField acc.extension (strL ("extension"))
  let priority ← reqField acc.priority (strL ("priority"))
  let enhanced ← reqField acc.enhanced (strL ("enhanced"))
  let accountcode ← reqField acc.accountcode (strL ("accountcode"))
  let threadid ← reqField acc.threadid (strL ("threadid"))
  return { network_script, request, channel, language, channel_type, uniqueid,
           version, callerid, calleridname, callingpres, callingani2, callington,
           callingtns, dnid, rdnis, context, extension, priority, enhanced,
           accountcode, threadid, custom_args := acc.custom_args.getD [] }

/-- Strip one trailing carriage return, as Rust `str::lines` does. -/
def stripCR (l : Str) : Str := if l.getLast? = some '\r' then l.dropLast else l

/-- Rust `str::lines`: split at `\n`, drop an optional final empty piece,
strip one trailing `\r` from each line. -/
def linesOf (s : Str) : List Str :=
  let ps := splitChar '\n' s
  let ps2 := if ps.getLast? = some [] then ps.dropLast else ps
  ps2.map stripCR

/-- `impl FromStr for AGIVariableDump` (src/agiparse.rs:294-473). -/
def parseVariableDump (urlParse : Str → Option UrlM) (input : Str) :
    Except AGIParseError AGIVariableDump :=
  match vdLoop urlParse vdAccEmpty (linesOf input) with
  | .error e => .error e
  | .ok acc => vdBuild acc

/-- Join path segments with `/` (the wildcard accumulation of
`Router::path_matches` and the path rendering of a URL). -/
def joinSlash : List Str → Str
  | [] => []
  | [s] => s
  | s :: rest => s ++ '/' :: joinSlash rest

/-- Fuelled decimal rendering of a natural number. -/
def natToStrF : Nat → Nat → Str
  | 0, _ => []
  | f + 1, n =>
      if n < 10 then [Char.ofNat (48 + n)]
      else natToStrF f (n / 10) ++ [Char.ofNat (48 + n % 10)]

/-- Decimal rendering of a natural number (Rust `Display` for integers). -/
def natToStr (n : Nat) : Str := natToStrF (n + 1) n

/-- Rust `Display` for `bool`: `true` / `false`. -/
def boolStr (b : Bool) : Str := if b then strL ("true") else strL ("false")

/-- Models the `url` crate's `Display` for the URL shapes built here. -/
def displayUrl (u : UrlM) : Str :=
  u.scheme ++ strL ("://") ++ u.host ++
    (match u.pathSegments with
     | none => []
     | some segs => '/' :: joinSlash segs)

/-- `impl Display for AGIRequestType` (src/agiparse.rs:204-215): a file
path is printed with `{:?}` (Rust `Debug`, quote-wrapped for paths that
need no escaping), a URL with `{}`. -/
def displayReq : AGIRequestType → Str
  | .File p => '"' :: (p ++ ['"'])
  | .FastAGI u => displayUrl u

/-- Render the custom args at indices `0..len`, `none` models the
`.expect(..)` panic when an index in that range is absent
(src/agiparse.rs:281-290). -/
def displayCustomArgsF (m : List (Nat × Str)) : List Nat → Option Str
  | [] => some []
  | i :: rest =>
      match caGet i m with
      | none => none
      | some v =>
          (displayCustomArgsF m rest).map
            (fun tail => strL ("agi_arg_") ++ natToStr i ++ strL (": ") ++ v ++ '\n' :: tail)

/-- Render all custom args lines of the `Display` impl. -/
def displayCustomArgs (m : List (Nat × Str)) : Option Str :=
  displayCustomArgsF m (List.range m.length)

/-- One `name: value` line of the `Display` impl. -/
def fieldLine (nm v : Str) : Str := nm ++ strL (": ") ++ v ++ ['\n']

/-- `impl Display for AGIVariableDump` (src/agiparse.rs:258-293).  Note
that the renderer writes the channel type under the name
`agi_channel_type` and the enhanced flag as `true` / `false`. -/
def displayVariableDump (d : AGIVariableDump) : Option Str :=
  match displayCustomArgs d.custom_args with
  | none => none
  | some ca =>
      some (fieldLine (strL ("agi_network_script")) d.network_script ++
        (fieldLine (strL ("agi_request")) (displayReq d.request) ++
        (fieldLine (strL ("agi_channel")) d.channel ++
        (fieldLine (strL ("agi_language")) d.language ++
        (fieldLine (strL ("agi_channel_type")) d.channel_type ++
        (fieldLine (strL ("agi_uniqueid")) d.uniqueid ++
        (fieldLine (strL ("agi_version")) d.version ++
        (fieldLine (strL ("agi_callerid")) d.callerid ++
        (fieldLine (strL ("agi_calleridname")) d.calleridname ++
        (fieldLine (strL ("agi_callingpres")) d.callingpres ++
        (fieldLine (strL ("agi_callingani2")) d.callingani2 ++
        (fieldLine (strL ("agi_callington")) d.callington ++
        (fieldLine (strL ("agi_callingtns")) d.callingtns ++
        (fieldLine (strL ("agi_dnid")) d.dnid ++
        (fieldLine (strL ("agi_rdnis")) d.rdnis ++
        (fieldLine (strL ("agi_context")) d.context ++
        (fieldLine (strL ("agi_extension")) d.extension ++
        (fieldLine (strL ("agi_priority")) (natToStr d.priority) ++
        (fieldLine (strL ("agi_enhanced")) (boolStr d.enhanced) ++
        (fieldLine (strL ("agi_accountcode")) d.accountcode ++
        (fieldLine (strL ("agi_threadid")) (natToStr d.threadid) ++
        (ca))))))))))))))))))))))

/-- The variable dump of the repository's own test vectors
(`agi_variable_dump_wo_custom_args`). -/
def testDump : AGIVariableDump where
  network_script := strL ("agi.sh")
  request := .File (strL ("/tmp/agi.sh"))
  channel := strL ("SIP/marcelog-e00d2760")
  language := strL ("ar")
  channel_type := strL ("SIP")
  uniqueid := strL ("1297542965.8")
  version := strL ("1.6.0.9")
  callerid := strL ("marcelog")
  calleridname := strL ("marcelog@mg")
  callingpres := strL ("0")
  callingani2 := strL ("0")
  callington := strL ("0")
  callingtns := strL ("0")
  dnid := strL ("667")
  rdnis := strL ("unknown")
  context := strL ("default")
  extension := strL ("667")
  priority := 2
  enhanced := false
  accountcode := strL ("")
  threadid := 1104922960
  custom_args := []

/-- The wire text of the repository's test vector without custom args. -/
def testDumpText : Str :=
  strL ("agi_network_script: agi.sh \nagi_request: /tmp/agi.sh \nagi_channel: SIP/marcelog-e00d2760 \nagi_language: ar \nagi_type: SIP \nagi_uniqueid: 1297542965.8 \nagi_version: 1.6.0.9 \nagi_callerid: marcelog \nagi_calleridname: marcelog@mg \nagi_callingpres: 0 \nagi_callingani2: 0 \nagi_callington: 0 \nagi_callingtns: 0 \nagi_dnid: 667 \nagi_rdnis: unknown \nagi_context: default \nagi_extension: 667 \nagi_priority: 2 \nagi_enhanced: 0.0 \nagi_accountcode: \nagi_threadid: 1104922960\n\n")

example : parseVariableDump urlParseSimple testDumpText = .ok testDump := by decide

theorem splitChar_ne_nil (sep : Char) (s : Str) : splitChar sep s ≠ [] := by
  cases s with
  | nil => simp [splitChar]
  | cons c t =>
      simp only [splitChar]
      by_cases h : c = sep <;> simp [h]

theorem linesOf_cons (a r : Str) (ha : '\n' ∉ a) :
    linesOf (a ++ '\n' :: r) = stripCR a :: linesOf r := by
  have hsplit : splitChar '\n' (a ++ '\n' :: r) = a :: splitChar '\n' r :=
    splitChar_cons_sep '\n' a r (fun c hc => by intro hcn; rw [hcn] at hc; exact ha hc)
  obtain ⟨p, ps, hps⟩ : ∃ p ps, splitChar '\n' r = p :: ps := by
    cases h : splitChar '\n' r with
    | nil => exact absurd h (splitChar_ne_nil '\n' r)
    | cons p ps => exact ⟨p, ps, rfl⟩
  simp only [linesOf, hsplit, hps]
  by_cases hlast : (p :: ps).getLast? = some ([] : Str)
  · rw [List.getLast?_cons_cons, hlast, if_pos rfl, if_pos rfl, List.dropLast_cons_of_ne_nil]
    · simp
    · simp
  · rw [List.getLast?_cons_cons, if_neg hlast, if_neg hlast]
    simp

theorem stripCR_safe (l : Str) (h : l.getLast? ≠ some '\r') : stripCR l = l := by
  rw [stripCR, if_neg h]

theorem fieldLine_core_last (nm v : Str)
    (hv : v.getLast? ≠ some '\r') :
    (nm ++ strL (": ") ++ v).getLast? ≠ some '\r' := by
  cases v with
  | nil =>
      have : (nm ++ strL (": ") ++ ([] : Str)).getLast? = some ' ' := by
        rw [List.append_nil, List.getLast?_append_of_ne_nil nm (by decide)]
        rfl
      rw [this]; decide
  | cons c t =>
      rw [List.getLast?_append_of_ne_nil _ (by simp)]
      exact hv

theorem breakSub_dec (sep : Str) (hsep : sep ≠ []) :
    ∀ (s a b : Str), breakSub sep s = some (a, b) → b.length < s.length := by
  intro s
  induction s with
  | nil =>
      intro a b h
      rw [breakSub, if_neg hsep] at h
      cases h
  | cons c t ih =>
      intro a b h
      rw [breakSub] at h
      by_cases hpre : startsWithL sep (c :: t) = true
      · rw [if_pos hpre] at h
        injection h with h
        injection h with h1 h2
        subst h2
        have hlen : 1 ≤ sep.length := by
          cases sep with
          | nil => exact absurd rfl hsep
          | cons _ _ => simp
        calc ((c :: t).drop sep.length).length = (c :: t).length - sep.length := by
              rw [List.length_drop]
          _ < (c :: t).length := by simp; omega
      · rw [if_neg hpre] at h
        rcases hb : breakSub sep t with _ | ⟨a', b'⟩
        · rw [hb] at h; cases h
        · rw [hb] at h
          injection h with h
          injection h with h1 h2
          subst h2
          have := ih a' b' hb
          simp
          omega

theorem splitSubF_mono (sep : Str) (hsep : sep ≠ []) :
    ∀ (n : Nat) (s : Str) (f1 f2 : Nat), s.length < f1 → s.length < f2 →
      s.length ≤ n → splitSubF sep f1 s = splitSubF sep f2 s := by
  intro n
  induction n with
  | zero =>
      intro s f1 f2 h1 h2 hn
      have hs : s = [] := List.length_eq_zero.mp (Nat.le_zero.mp hn)
      subst hs
      match f1, f2, h1, h2 with
      | g1 + 1, g2 + 1, _, _ =>
        rw [splitSubF, splitSubF]
        rcases hb : breakSub sep [] with _ | ⟨a, b⟩
        · rfl
        · have := breakSub_dec sep hsep [] a b hb
          simp at this
  | succ n ih =>
      intro s f1 f2 h1 h2 hn
      match f1, f2, h1, h2 with
      | g1 + 1, g2 + 1, h1, h2 =>
        rw [splitSubF, splitSubF]
        rcases hb : breakSub sep s with _ | ⟨a, b⟩
        · rfl
        · dsimp only
          have hd := breakSub_dec sep hsep s a b hb
          rw [ih b g1 g2 (by omega) (by omega) (by omega)]

theorem splitSubF_ne_nil (sep : Str) (f : Nat) (s : Str) : splitSubF sep f s ≠ [] := by
  cases f with
  | zero => simp [splitSubF]
  | succ g =>
      rw [splitSubF]
      rcases hb : breakSub sep s with _ | ⟨a, b⟩ <;> simp

theorem breakSub_field (nm v : Str) (hcol : ∀ c ∈ nm, c ≠ ':') :
    breakSub (strL (": ")) (nm ++ strL (": ") ++ v) = some (nm, v) := by
  induction nm with
  | nil =>
      simp only [List.nil_append]
      have hshape : strL (": ") ++ v = ':' :: (' ' :: v) := rfl
      rw [hshape]
      simp only [breakSub]
      rw [if_pos]
      · have hdrop : (':' :: (' ' :: v)).drop (strL (": ")).length = v := rfl
        rw [hdrop]
      · exact startsWithL_self_append (strL (": ")) v
  | cons c t ih =>
      have hc : c ≠ ':' := hcol c (List.mem_cons_self c t)
      have hrest := ih (fun x hx => hcol x (List.mem_cons_of_mem c hx))
      have hshape : (c :: t) ++ strL (": ") ++ v = c :: (t ++ strL (": ") ++ v) := by simp
      rw [hshape]
      simp only [breakSub]
      rw [if_neg, hrest]
      · intro hpre
        have hx : startsWithL (':' :: [' ']) (c :: (t ++ strL (": ") ++ v)) = true := hpre
        rw [startsWithL] at hx
        have hbeq : (':' == c) = true := (Bool.and_eq_true_iff.mp hx).1
        exact hc (eq_of_beq hbeq).symm

theorem splitSub_field (nm v : Str) (hcol : ∀ c ∈ nm, c ≠ ':') :
    splitSub (strL (": ")) (nm ++ strL (": ") ++ v) =
      nm :: splitSub (strL (": ")) v := by
  have hlen : v.length < (nm ++ strL (": ") ++ v).length := by
    simp only [List.length_append]
    have h2 : (strL (": ")).length = 2 := rfl
    omega
  rw [splitSub, splitSubF, breakSub_field nm v hcol]
  dsimp only
  rw [splitSubF_mono (strL (": ")) (by decide) v.length v
    ((nm ++ strL (": ") ++ v).length) (v.length + 1) hlen (by omega) (by omega)]
  rfl

theorem vdLine_field (up : Str → Option UrlM) (acc : VDAcc) (nm v : Str)
    (hcol : ∀ c ∈ nm, c ≠ ':') :
    vdLine up acc (nm ++ strL (": ") ++ v) =
      vdDispatch up acc nm (trimEndL ((splitSub (strL (": ")) v).headD [])) := by
  rw [vdLine, splitSub_field nm v hcol]
  cases h : splitSub (strL (": ")) v with
  | nil => exact absurd h (splitSubF_ne_nil _ _ _)
  | cons v0 rest => rfl

theorem vdDispatch_network_script (up : Str → Option UrlM) (acc : VDAcc) (value : Str) :
    vdDispatch up acc (strL ("agi_network_script")) value =
      .ok { acc with network_script := some value } := by
  rw [vdDispatch, if_pos rfl]

theorem vdDispatch_request (up : Str → Option UrlM) (acc : VDAcc) (value : Str) :
    vdDispatch up acc (strL ("agi_request")) value =
      .ok { acc with request := some (match up value with
        | some u => AGIRequestType.FastAGI u
        | none => AGIRequestType.File value) } := by
  rw [vdDispatch, if_neg (by decide), if_pos rfl]
  rcases h : up value with _ | u <;> simp only [reqFromStr, h]

theorem vdDispatch_channel (up : Str → Option UrlM) (acc : VDAcc) (value : Str) :
    vdDispatch up acc (strL ("agi_channel")) value =
      .ok { acc with channel := some value } := by
  rw [vdDispatch, if_neg (by decide), if_neg (by decide), if_pos rfl]

theorem vdDispatch_language (up : Str → Option UrlM) (acc : VDAcc) (value : Str) :
    vdDispatch up acc (strL ("agi_language")) value =
      .ok { acc with language := some value } := by
  rw [vdDispatch, if_neg (by decide), if_neg (by decide), if_neg (by decide), if_pos rfl]

theorem vdDispatch_channel_type_unknown (up : Str → Option UrlM) (acc : VDAcc) (value : Str) :
    vdDispatch up acc (strL ("agi_channel_type")) value =
      .error (.UnknownArg (strL ("agi_channel_type"))) := by
  rw [vdDispatch, if_neg (by decide), if_neg (by decide), if_neg (by decide),
    if_neg (by decide), if_neg (by decide), if_neg (by decide), if_neg (by decide),
    if_neg (by decide), if_neg (by decide), if_neg (by decide), if_neg (by decide),
    if_neg (by decide), if_neg (by decide), if_neg (by decide), if_neg (by decide),
    if_neg (by decide), if_neg (by decide), if_neg (by decide), if_neg (by decide),
    if_neg (by decide), if_neg (by decide), if_neg (by decide)]

theorem fieldLine_append (nm v R : Str) :
    fieldLine nm v ++ R = (nm ++ strL (": ") ++ v) ++ '\n' :: R := by
  simp [fieldLine]

theorem core_no_nl (nm v : Str) (hnm : '\n' ∉ nm) (hv : '\n' ∉ v) :
    '\n' ∉ nm ++ strL (": ") ++ v := by
  intro h
  rcases List.mem_append.mp h with h | h
  · rcases List.mem_append.mp h with h | h
    · exact hnm h
    · exact absurd h (by decide)
  · exact hv h

theorem core_ne_nil (nm v : Str) (h : nm ≠ []) : nm ++ strL (": ") ++ v ≠ [] := by
  simp [h]

/-- One parsing step on a rendered field line: peel the line off `linesOf`
and dispatch it. -/
theorem vdStep_line (up : Str → Option UrlM) (acc : VDAcc) (nm v R : Str)
    (hnm : nm ≠ []) (hnmnl : '\n' ∉ nm) (hcol : ∀ c ∈ nm, c ≠ ':')
    (hvnl : '\n' ∉ v) (hvcr : v.getLast? ≠ some '\r') :
    vdLoop up acc (linesOf (fieldLine nm v ++ R)) =
      (match vdDispatch up acc nm (trimEndL ((splitSub (strL (": ")) v).headD [])) with
       | .error e => .error e
       | .ok acc' => vdLoop up acc' (linesOf R)) := by
  rw [fieldLine_append, linesOf_cons _ _ (core_no_nl nm v hnmnl hvnl),
    stripCR_safe _ (fieldLine_core_last nm v hvcr), vdLoop,
    if_neg (core_ne_nil nm v hnm), vdLine_field up acc nm v hcol]

/-- C3 (amended): re-parsing a rendered variable dump never returns the
dump.  For every dump whose first five rendered field values are
line-shaped (no embedded newline, no trailing carriage return — as all
values obtained by parsing are), parsing the rendered text fails with
`UnknownArg "agi_channel_type"`: the renderer writes the channel type
under the name `agi_channel_type` while the parser only accepts
`agi_type`. -/
theorem vdStep_ok (up : Str → Option UrlM) (acc : VDAcc) (nm v R : Str) (acc' : VDAcc)
    (hnm : nm ≠ []) (hnmnl : '\n' ∉ nm) (hcol : ∀ c ∈ nm, c ≠ ':')
    (hvnl : '\n' ∉ v) (hvcr : v.getLast? ≠ some '\r')
    (hres : vdDispatch up acc nm (trimEndL ((splitSub (strL (": ")) v).headD [])) = .ok acc') :
    vdLoop up acc (linesOf (fieldLine nm v ++ R)) = vdLoop up acc' (linesOf R) := by
  rw [vdStep_line up acc nm v R hnm hnmnl hcol hvnl hvcr, hres]

theorem vdStep_err (up : Str → Option UrlM) (acc : VDAcc) (nm v R : Str) (e : AGIParseError)
    (hnm : nm ≠ []) (hnmnl : '\n' ∉ nm) (hcol : ∀ c ∈ nm, c ≠ ':')
    (hvnl : '\n' ∉ v) (hvcr : v.getLast? ≠ some '\r')
    (hres : vdDispatch up acc nm (trimEndL ((splitSub (strL (": ")) v).headD [])) = .error e) :
    vdLoop up acc (linesOf (fieldLine nm v ++ R)) = .error e := by
  rw [vdStep_line up acc nm v R hnm hnmnl hcol hvnl hvcr, hres]

theorem parseVariableDump_err (up : Str → Option UrlM) (input : Str) (e : AGIParseError)
    (h : vdLoop up vdAccEmpty (linesOf input) = .error e) :
    parseVariableDump up input = .error e := by
  rw [parseVariableDump, h]

theorem C3_core (up : Str → Option UrlM) (v1 v2 v3 v4 v5 : Str) (R : Str)
    (h1n : '\n' ∉ v1) (h1r : v1.getLast? ≠ some '\r')
    (h2n : '\n' ∉ v2) (h2r : v2.getLast? ≠ some '\r')
    (h3n : '\n' ∉ v3) (h3r : v3.getLast? ≠ some '\r')
    (h4n : '\n' ∉ v4) (h4r : v4.getLast? ≠ some '\r')
    (h5n : '\n' ∉ v5) (h5r : v5.getLast? ≠ some '\r') :
    vdLoop up vdAccEmpty (linesOf
        (fieldLine (strL ("agi_network_script")) v1 ++
          (fieldLine (strL ("agi_request")) v2 ++
            (fieldLine (strL ("agi_channel")) v3 ++
              (fieldLine (strL ("agi_language")) v4 ++
                (fieldLine (strL ("agi_channel_type")) v5 ++ R)))))) =
      .error (.UnknownArg (strL ("agi_channel_type"))) := by
  refine Eq.trans (vdStep_ok up vdAccEmpty _ _ _ _ (by decide) (by decide) (by decide)
    h1n h1r (vdDispatch_network_script up vdAccEmpty _)) ?_
  refine Eq.trans (vdStep_ok up _ _ _ _ _ (by decide) (by decide) (by decide)
    h2n h2r (vdDispatch_request up _ _)) ?_
  refine Eq.trans (vdStep_ok up _ _ _ _ _ (by decide) (by decide) (by decide)
    h3n h3r (vdDispatch_channel up _ _)) ?_
  refine Eq.trans (vdStep_ok up _ _ _ _ _ (by decide) (by decide) (by decide)
    h4n h4r (vdDispatch_language up _ _)) ?_
  exact vdStep_err up _ _ _ _ _ (by decide) (by decide) (by decide)
    h5n h5r (vdDispatch_channel_type_unknown up _ _)

theorem C3_display_reparse_fails (up : Str → Option UrlM) (d : AGIVariableDump) (s : Str)
    (hdisp : displayVariableDump d = some s)
    (h1n : '\n' ∉ d.network_script) (h1r : d.network_script.getLast? ≠ some '\r')
    (h2n : '\n' ∉ displayReq d.request) (h2r : (displayReq d.request).getLast? ≠ some '\r')
    (h3n : '\n' ∉ d.channel) (h3r : d.channel.getLast? ≠ some '\r')
    (h4n : '\n' ∉ d.language) (h4r : d.language.getLast? ≠ some '\r')
    (h5n : '\n' ∉ d.channel_type) (h5r : d.channel_type.getLast? ≠ some '\r') :
    parseVariableDump up s = .error (.UnknownArg (strL ("agi_channel_type"))) := by
  rcases hca : displayCustomArgs d.custom_args with _ | ca
  · rw [displayVariableDump, hca] at hdisp
    dsimp only at hdisp
    cases hdisp
  · rw [displayVariableDump, hca] at hdisp
    dsimp only at hdisp
    have hs := Option.some.inj hdisp
    apply parseVariableDump_err
    rw [← hs]
    exact C3_core up d.network_script (displayReq d.request) d.channel d.language
      d.channel_type _ h1n h1r h2n h2r h3n h3r h4n h4r h5n h5r

set_option maxHeartbeats 2000000 in
set_option maxRecDepth 100000 in
/-- Witness for C3 (amended) at the repository's own test dump. -/
theorem C3_display_reparse_fails_witness :
    parseVariableDump urlParseSimple ((displayVariableDump testDump).getD []) =
      .error (.UnknownArg (strL ("agi_channel_type"))) := by
  exact C3_display_reparse_fails urlParseSimple testDump
    ((displayVariableDump testDump).getD []) (by decide)
    (by decide) (by decide) (by decide) (by decide) (by decide)
    (by decide) (by decide) (by decide) (by decide) (by decide)

set_option maxHeartbeats 2000000 in
set_option maxRecDepth 100000 in
/-- Counterexample to C3 as stated: the test dump parses successfully
from its wire text, but rendering it and re-parsing the rendered text
does not yield the dump back — it fails with `UnknownArg`. -/
theorem C3_roundtrip_counterexample :
    parseVariableDump urlParseSimple testDumpText = .ok testDump ∧
    (displayVariableDump testDump).map (fun s => parseVariableDump urlParseSimple s) =
      some (.error (.UnknownArg (strL ("agi_channel_type")))) := by
  constructor
  · decide
  · decide

/-- C10: parsing the `agi_request` value is total: whatever the URL
parser of the `url` crate answers, the result is `Ok` — a successful URL
parse becomes `FastAGI`, anything else a `File` path.  Consequently the
`agi_request` arm of the variable-dump line dispatcher never errors. -/
theorem C10_request_parse_total (urlParse : Str → Option UrlM) (s : Str) (acc : VDAcc) :
    reqFromStr urlParse s = .ok (match urlParse s with
      | some u => AGIRequestType.FastAGI u
      | none => AGIRequestType.File s) ∧
    ∃ acc', vdDispatch urlParse acc (strL ("agi_request")) s = .ok acc' := by
  constructor
  · rw [reqFromStr]
    rcases urlParse s with _ | u <;> rfl
  · exact ⟨_, vdDispatch_request urlParse acc s⟩

/-- The message type `AGIMessage` of `src/agiparse.rs`. -/
inductive AGIMessage where
  | VariableDump (d : AGIVariableDump)
  | Status (s : AGIStatusGeneric)
  | NetworkStart
deriving DecidableEq, Repr

/-- Substring containment, Rust `str::contains`. -/
def containsSub (needle : Str) : Str → Bool
  | [] => needle.isEmpty
  | c :: t => startsWithL needle (c :: t) || containsSub needle t

/-- `impl FromStr for AGIMessage` (src/agiparse.rs:486-503): a buffer
starting with `agi_network: yes` is a network start; one containing
` result=` parses its first line as a status (`split('\n').next()` is
always `Some`, so the `StatusWithoutNewline` error path is dead code);
anything else parses as a variable dump. -/
def parseAGIMessage (up : Str → Option UrlM) (s : Str) : Except AGIParseError AGIMessage :=
  if startsWithL (strL ("agi_network: yes")) s then .ok .NetworkStart
  else if containsSub (strL (" result=")) s then
    match parseStatusGeneric ((splitChar '\n' s).headD []) with
    | .ok st => .ok (.Status st)
    | .error e => .error e
  else
    match parseVariableDump up s with
    | .ok d => .ok (.VariableDump d)
    | .error e => .error e

/-- The line classification `LineType` of `src/connection.rs`. -/
inductive LineTypeT where
  | NetworkStart
  | Empty
  | Status
  | Unknown
deriving DecidableEq, Repr

/-- `line_type` (src/connection.rs:246-256).  `none` models the panic of
the byte slice `line[3..]` when byte index 3 is not a char boundary. -/
def lineType (l : Str) : Option LineTypeT :=
  if l = ['\n'] then some .Empty
  else if l = strL ("agi_network: yes\n") then some .NetworkStart
  else if 3 ≤ bytesLen l then
    match byteDrop 3 l with
    | none => none
    | some rest =>
        if startsWithL (strL (" result=")) rest then some .Status else some .Unknown
  else some .Unknown

/-- Result of one `strip_single_message` attempt.  `panic` models an
abort; `more` means not enough bytes yet; `msg` carries the stripped
message, the remaining buffer, and whether it came from the
opportunistic no-newline parse (`try_parse_and_flush`). -/
inductive StripRes where
  | panic
  | fail (e : AGIParseError)
  | more
  | msg (m : AGIMessage) (rest : Str) (flush : Bool)
deriving DecidableEq, Repr

/-- Rejoin newline-separated pieces (left inverse of `splitChar '\n'`). -/
def joinNL : List Str → Str
  | [] => []
  | [p] => p
  | p :: rest => p ++ '\n' :: joinNL rest

/-- The no-newline tail of `strip_single_message` (src/connection.rs:53-63):
when no further newline exists, classify the whole buffer; a `Status`
classification triggers `try_parse_and_flush`, whose parse failure is
swallowed (`Err(_) => Ok(None)`). -/
def stripNoNewline (up : Str → Option UrlM) (whole : Str) : StripRes :=
  match lineType whole with
  | none => .panic
  | some .Status =>
      match parseAGIMessage up whole with
      | .ok m => .msg m [] true
      | .error _ => .more
  | some _ => .more

/-- The line scan of `strip_single_message` (src/connection.rs:41-92)
over the newline-split pieces of the buffer.  `processed` is the scanned
prefix of the buffer (`..current_line_start`); a piece that is followed
by another piece is a complete line, newline included. -/
def stripPieces (up : Str → Option UrlM) (processed : Str) : List Str → StripRes
  | [] => .more
  | [last] => stripNoNewline up (processed ++ last)
  | piece :: p2 :: rest =>
      match lineType (piece ++ ['\n']) with
      | none => .panic
      | some .Empty =>
          (match parseAGIMessage up (processed ++ (piece ++ ['\n'])) with
           | .ok m => .msg m (joinNL (p2 :: rest)) false
           | .error e => .fail e)
      | some .Status =>
          (match parseAGIMessage up (processed ++ (piece ++ ['\n'])) with
           | .ok m => .msg m (joinNL (p2 :: rest)) false
           | .error e => .fail e)
      | some .NetworkStart => .msg .NetworkStart (joinNL (p2 :: rest)) false
      | some .Unknown => stripPieces up (processed ++ (piece ++ ['\n'])) (p2 :: rest)

/-- `AGIMessageBuffer::strip_single_message`: empty-buffer early return,
then the line scan. -/
def stripOne (up : Str → Option UrlM) (buf : Str) : StripRes :=
  if buf = [] then .more else stripPieces up [] (splitChar '\n' buf)

/-- Result of draining one buffer: the accumulated messages, the final
buffer, and whether any strip in this drain used the opportunistic
no-newline parse. -/
inductive PeelRes where
  | panic
  | fail (e : AGIParseError)
  | ok (msgs : List AGIMessage) (rest : Str) (flushed : Bool)
deriving DecidableEq, Repr

/-- Fuelled drain loop of `handle_single_call_buffer`
(src/connection.rs:98-122): strip messages from the front as often as
possible, erroring when a `NetworkStart` follows another message of the
same call. -/
def peelCont (up : Str → Option UrlM) : Nat → List AGIMessage → Str → PeelRes
  | 0, res, buf => .ok res buf false
  | f + 1, res, buf =>
      match stripOne up buf with
      | .panic => .panic
      | .fail e => .fail e
      | .more => .ok res buf false
      | .msg m rest flush =>
          if m = AGIMessage.NetworkStart ∧ res ≠ [] then
            .fail .NetworkStartAfterOtherMessage
          else
            match peelCont up f (res ++ [m]) rest with
            | .ok ms r fl => .ok ms r (flush || fl)
            | other => other

/-- Drain with always-sufficient fuel. -/
def peelA (up : Str → Option UrlM) (res : List AGIMessage) (buf : Str) : PeelRes :=
  peelCont up (buf.length + 1) res buf

/-- `handle_single_call_buffer`: push the newly read chunk onto the
carry-over buffer, then drain. -/
def handleSingle (up : Str → Option UrlM) (st chunk : Str) : PeelRes :=
  peelA up [] (st ++ chunk)

/-- Result of feeding a sequence of chunks: all messages in order, the
final carry-over buffer, and the per-chunk opportunistic-parse flags. -/
inductive FeedRes where
  | panic
  | fail (e : AGIParseError)
  | ok (msgs : List AGIMessage) (rest : Str) (flags : List Bool)
deriving DecidableEq, Repr

/-- Feed chunks one TCP read at a time through the wire parser. -/
def feedFrom (up : Str → Option UrlM) (st : Str) : List Str → FeedRes
  | [] => .ok [] st []
  | c :: cs =>
      match handleSingle up st c with
      | .panic => .panic
      | .fail e => .fail e
      | .ok ms r fl =>
          match feedFrom up r cs with
          | .ok ms2 r2 fls => .ok (ms ++ ms2) r2 (fl :: fls)
          | other => other

example : feedFrom urlParseSimple [] [strL ("200 result=1 done\n")] =
    .ok [.Status (.Ok (strL ("1")) (some (strL ("done"))))] [] [false] := by decide

example : feedFrom urlParseSimple [] [strL ("200 "), strL ("result=1 done\n")] =
    .ok [.Status (.Ok (strL ("1")) (some (strL ("done"))))] [] [false, false] := by decide

example : feedFrom urlParseSimple [] [strL ("200 "), strL ("result"), strL ("=1 done\n")] =
    .ok [.Status (.Ok (strL ("1")) (some (strL ("done"))))] [] [false, false, false] := by
  decide

example : feedFrom urlParseSimple [] [strL ("agi_network: yes\n")] =
    .ok [.NetworkStart] [] [false] := by decide

/-- Counterexample to C2 as stated: the byte string `200 result=12\n`
fed in a single chunk yields the status `result="12"`, but the in-order
partition `["200 result=1", "2\n"]` yields `result="1"` — the first
chunk is consumed early by the opportunistic no-newline status parse. -/
theorem C2_fragmentation_counterexample :
    feedFrom urlParseSimple [] [strL ("200 result=12\n")] =
      .ok [.Status (.Ok (strL ("12")) none)] [] [false] ∧
    feedFrom urlParseSimple [] [strL ("200 result=1"), strL ("2\n")] =
      .ok [.Status (.Ok (strL ("1")) none)] (strL ("2\n")) [true, false] := by
  constructor
  · decide
  · decide

/-- Glue two split results at the junction: the last piece of the first
and the first piece of the second belong to one line. -/
def glueSplit : List Str → List Str → List Str
  | [], l2 => l2
  | [p], l2 =>
      (match l2 with
       | [] => [p]
       | h :: t => (p ++ h) :: t)
  | p :: ps, l2 => p :: glueSplit ps l2

theorem glueSplit_cons (p : Str) (ps l2 : List Str) (h : ps ≠ []) :
    glueSplit (p :: ps) l2 = p :: glueSplit ps l2 := by
  cases ps with
  | nil => exact absurd rfl h
  | cons q qs => rfl

theorem glueSplit_single (p : Str) (l2 : List Str) (h2 : l2 ≠ []) :
    glueSplit [p] l2 = (p ++ l2.headD []) :: l2.tail := by
  cases l2 with
  | nil => exact absurd rfl h2
  | cons a as => rfl

theorem glueSplit_ne_nil (A B : List Str) (hB : B ≠ []) : glueSplit A B ≠ [] := by
  cases A with
  | nil => simpa [glueSplit] using hB
  | cons p ps =>
      cases ps with
      | nil =>
          cases B with
          | nil => exact absurd rfl hB
          | cons a as => simp [glueSplit]
      | cons q qs => simp [glueSplit]

theorem splitChar_append (sep : Char) (x y : Str) :
    splitChar sep (x ++ y) = glueSplit (splitChar sep x) (splitChar sep y) := by
  induction x with
  | nil =>
      cases h : splitChar sep y with
      | nil => exact absurd h (splitChar_ne_nil sep y)
      | cons a as => simp [splitChar, glueSplit, h]
  | cons c t ih =>
      have hx : (c :: t) ++ y = c :: (t ++ y) := rfl
      rw [hx, splitChar, splitChar, ih]
      by_cases hc : c = sep
      · rw [if_pos hc, if_pos hc, glueSplit_cons _ _ _ (splitChar_ne_nil sep t)]
      · rw [if_neg hc, if_neg hc]
        cases ht : splitChar sep t with
        | nil => exact absurd ht (splitChar_ne_nil sep t)
        | cons q qs =>
            cases qs with
            | nil =>
                cases hy : splitChar sep y with
                | nil => exact absurd hy (splitChar_ne_nil sep y)
                | cons a as => simp [glueSplit]
            | cons q2 qs2 => simp [glueSplit]

theorem joinNL_cons (p : Str) (X : List Str) (h : X ≠ []) :
    joinNL (p :: X) = p ++ '\n' :: joinNL X := by
  cases X with
  | nil => exact absurd rfl h
  | cons a as => rfl

theorem joinNL_glueSplit (A B : List Str) (hB : B ≠ []) :
    joinNL (glueSplit A B) = joinNL A ++ joinNL B := by
  induction A with
  | nil => simp [glueSplit, joinNL]
  | cons p ps ih =>
      cases ps with
      | nil =>
          cases B with
          | nil => exact absurd rfl hB
          | cons h t =>
              rw [glueSplit_single p _ (by simp)]
              cases t with
              | nil => simp [joinNL]
              | cons t1 ts => simp [joinNL, List.append_assoc]
      | cons q qs =>
          rw [glueSplit_cons _ _ _ (by simp),
            joinNL_cons _ _ (glueSplit_ne_nil _ _ hB),
            joinNL_cons _ _ (by simp), ih]
          simp

theorem joinNL_splitChar (s : Str) : joinNL (splitChar '\n' s) = s := by
  induction s with
  | nil => rfl
  | cons c t ih =>
      rw [splitChar]
      by_cases hc : c = '\n'
      · rw [if_pos hc, joinNL_cons _ _ (splitChar_ne_nil '\n' t), ih, hc]
        rfl
      · rw [if_neg hc]
        cases ht : splitChar '\n' t with
        | nil => exact absurd ht (splitChar_ne_nil '\n' t)
        | cons q qs =>
            rw [ht] at ih
            cases qs with
            | nil =>
                simp only [List.headD, List.tail]
                rw [joinNL] at ih ⊢
                rw [ih]
            | cons q2 qs2 =>
                simp only [List.headD, List.tail]
                rw [joinNL_cons _ _ (by simp)] at ih
                rw [joinNL_cons _ _ (by simp), ← ih]
                simp

theorem startsWithL_exists (p s : Str) (h : startsWithL p s = true) :
    ∃ t, s = p ++ t := by
  induction p generalizing s with
  | nil => exact ⟨s, rfl⟩
  | cons a pt ih =>
      cases s with
      | nil => cases h
      | cons b st =>
          rw [startsWithL, Bool.and_eq_true] at h
          obtain ⟨t, ht⟩ := ih st h.2
          exact ⟨t, by rw [ht, eq_of_beq h.1]; rfl⟩

theorem lineType_not_status_of_netstart (w : Str)
    (h : startsWithL (strL ("agi_network: yes")) w = true) :
    lineType w ≠ some .Status := by
  obtain ⟨tail, htail⟩ := startsWithL_exists _ _ h
  subst htail
  rw [lineType]
  by_cases h1 : strL ("agi_network: yes") ++ tail = ['\n']
  · rw [if_pos h1]; intro hx; cases hx
  · rw [if_neg h1]
    by_cases h2 : strL ("agi_network: yes") ++ tail = strL ("agi_network: yes\n")
    · rw [if_pos h2]; intro hx; cases hx
    · rw [if_neg h2]
      by_cases h3 : 3 ≤ bytesLen (strL ("agi_network: yes") ++ tail)
      · rw [if_pos h3]
        have hdrop : byteDrop 3 (strL ("agi_network: yes") ++ tail) =
            some (strL ("_network: yes") ++ tail) := rfl
        have hsw : startsWithL (strL (" result=")) (strL ("_network: yes") ++ tail) =
            false := rfl
        rw [hdrop]
        dsimp only
        rw [hsw]
        intro hx
        simp at hx
      · rw [if_neg h3]
        intro hx; cases hx

theorem stripNoNewline_shape (up : Str → Option UrlM) (w : Str) :
    stripNoNewline up w = .panic ∨ stripNoNewline up w = .more ∨
      ∃ m, stripNoNewline up w = .msg m [] true ∧ m ≠ .NetworkStart := by
  rw [stripNoNewline]
  rcases hlt : lineType w with _ | lt
  · exact Or.inl rfl
  · cases lt with
    | Status =>
        dsimp only
        rcases hp : parseAGIMessage up w with e | m
        · exact Or.inr (Or.inl rfl)
        · refine Or.inr (Or.inr ⟨m, rfl, ?_⟩)
          intro hm
          subst hm
          rw [parseAGIMessage] at hp
          by_cases hsw : startsWithL (strL ("agi_network: yes")) w = true
          · exact lineType_not_status_of_netstart w hsw hlt
          · rw [if_neg hsw] at hp
            by_cases hct : containsSub (strL (" result=")) w = true
            · rw [if_pos hct] at hp
              rcases hq : parseStatusGeneric ((splitChar '\n' w).headD []) with e | st <;>
                rw [hq] at hp
              · cases hp
              · injection hp with hx; cases hx
            · rw [if_neg hct] at hp
              rcases hq : parseVariableDump up w with e | d <;> rw [hq] at hp
              · cases hp
              · injection hp with hx; cases hx
    | NetworkStart => exact Or.inr (Or.inl rfl)
    | Empty => exact Or.inr (Or.inl rfl)
    | Unknown => exact Or.inr (Or.inl rfl)

theorem stripPieces_cons_panic (up : Str → Option UrlM) (processed piece p2 : Str)
    (rest : List Str) (h : lineType (piece ++ ['\n']) = none) :
    stripPieces up processed (piece :: p2 :: rest) = .panic := by
  rw [stripPieces, h]

theorem stripPieces_cons_unknown (up : Str → Option UrlM) (processed piece p2 : Str)
    (rest : List Str) (h : lineType (piece ++ ['\n']) = some .Unknown) :
    stripPieces up processed (piece :: p2 :: rest) =
      stripPieces up (processed ++ (piece ++ ['\n'])) (p2 :: rest) := by
  rw [stripPieces, h]

theorem stripPieces_cons_ns (up : Str → Option UrlM) (processed piece p2 : Str)
    (rest : List Str) (h : lineType (piece ++ ['\n']) = some .NetworkStart) :
    stripPieces up processed (piece :: p2 :: rest) =
      .msg .NetworkStart (joinNL (p2 :: rest)) false := by
  rw [stripPieces, h]

theorem stripPieces_cons_term_ok (up : Str → Option UrlM) (processed piece p2 : Str)
    (rest : List Str) (m : AGIMessage)
    (hlt : lineType (piece ++ ['\n']) = some .Empty ∨
      lineType (piece ++ ['\n']) = some .Status)
    (hp : parseAGIMessage up (processed ++ (piece ++ ['\n'])) = .ok m) :
    stripPieces up processed (piece :: p2 :: rest) =
      .msg m (joinNL (p2 :: rest)) false := by
  rcases hlt with h | h <;> rw [stripPieces, h] <;> dsimp only <;> rw [hp]

theorem stripPieces_cons_term_err (up : Str → Option UrlM) (processed piece p2 : Str)
    (rest : List Str) (e : AGIParseError)
    (hlt : lineType (piece ++ ['\n']) = some .Empty ∨
      lineType (piece ++ ['\n']) = some .Status)
    (hp : parseAGIMessage up (processed ++ (piece ++ ['\n'])) = .error e) :
    stripPieces up processed (piece :: p2 :: rest) = .fail e := by
  rcases hlt with h | h <;> rw [stripPieces, h] <;> dsimp only <;> rw [hp]

theorem stripPieces_extend (up : Str → Option UrlM) (qs : List Str) (hqs : qs ≠ []) :
    ∀ (ps : List Str) (processed : Str),
      (∀ m rest, stripPieces up processed ps = .msg m rest false →
        stripPieces up processed (glueSplit ps qs) = .msg m (rest ++ joinNL qs) false) ∧
      (∀ e, stripPieces up processed ps = .fail e →
        stripPieces up processed (glueSplit ps qs) = .fail e) := by
  intro ps
  induction ps with
  | nil =>
      intro processed
      constructor
      · intro m rest h; cases h
      · intro e h; cases h
  | cons piece ps' ih =>
      intro processed
      cases ps' with
      | nil =>
          constructor
          · intro m rest h
            rw [stripPieces] at h
            rcases stripNoNewline_shape up (processed ++ piece) with hs | hs | ⟨m', hs, _⟩ <;>
              rw [hs] at h
            · cases h
            · cases h
            · injection h with _ _ hfl
              cases hfl
          · intro e h
            rw [stripPieces] at h
            rcases stripNoNewline_shape up (processed ++ piece) with hs | hs | ⟨m', hs, _⟩ <;>
              rw [hs] at h <;> cases h
      | cons p2 rest' =>
          have hglue : glueSplit (piece :: p2 :: rest') qs =
              piece :: glueSplit (p2 :: rest') qs := glueSplit_cons _ _ _ (by simp)
          obtain ⟨g1, grest, hg⟩ : ∃ g1 grest, glueSplit (p2 :: rest') qs = g1 :: grest := by
            cases hx : glueSplit (p2 :: rest') qs with
            | nil => exact absurd hx (glueSplit_ne_nil _ _ hqs)
            | cons a as => exact ⟨a, as, rfl⟩
          have hjoin : joinNL (glueSplit (p2 :: rest') qs) =
              joinNL (p2 :: rest') ++ joinNL qs := joinNL_glueSplit _ _ hqs
          constructor
          · intro m rest h
            rcases hlt : lineType (piece ++ ['\n']) with _ | lt
            · rw [stripPieces_cons_panic up processed piece p2 rest' hlt] at h; cases h
            · cases lt
              case Empty =>
                  rcases hp : parseAGIMessage up (processed ++ (piece ++ ['\n'])) with e' | m'
                  · rw [stripPieces_cons_term_err up processed piece p2 rest' e'
                      (Or.inl hlt) hp] at h
                    cases h
                  · rw [stripPieces_cons_term_ok up processed piece p2 rest' m'
                      (Or.inl hlt) hp] at h
                    injection h with hm hr hfl
                    subst hm; subst hr
                    rw [hglue, hg, stripPieces_cons_term_ok up processed piece g1 grest m'
                      (Or.inl hlt) hp, ← hg, hjoin]
              case Status =>
                  rcases hp : parseAGIMessage up (processed ++ (piece ++ ['\n'])) with e' | m'
                  · rw [stripPieces_cons_term_err up processed piece p2 rest' e'
                      (Or.inr hlt) hp] at h
                    cases h
                  · rw [stripPieces_cons_term_ok up processed piece p2 rest' m'
                      (Or.inr hlt) hp] at h
                    injection h with hm hr hfl
                    subst hm; subst hr
                    rw [hglue, hg, stripPieces_cons_term_ok up processed piece g1 grest m'
                      (Or.inr hlt) hp, ← hg, hjoin]
              case NetworkStart =>
                  rw [stripPieces_cons_ns up processed piece p2 rest' hlt] at h
                  injection h with hm hr hfl
                  subst hm; subst hr
                  rw [hglue, hg, stripPieces_cons_ns up processed piece g1 grest hlt,
                    ← hg, hjoin]
              case Unknown =>
                  rw [stripPieces_cons_unknown up processed piece p2 rest' hlt] at h
                  rw [hglue, hg, stripPieces_cons_unknown up processed piece g1 grest hlt,
                    ← hg]
                  exact (ih _).1 m rest h
          · intro e h
            rcases hlt : lineType (piece ++ ['\n']) with _ | lt
            · rw [stripPieces_cons_panic up processed piece p2 rest' hlt] at h; cases h
            · cases lt
              case Empty =>
                  rcases hp : parseAGIMessage up (processed ++ (piece ++ ['\n'])) with e' | m'
                  · rw [stripPieces_cons_term_err up processed piece p2 rest' e'
                      (Or.inl hlt) hp] at h
                    injection h with he
                    subst he
                    rw [hglue, hg]
                    exact stripPieces_cons_term_err up processed piece g1 grest e'
                      (Or.inl hlt) hp
                  · rw [stripPieces_cons_term_ok up processed piece p2 rest' m'
                      (Or.inl hlt) hp] at h
                    cases h
              case Status =>
                  rcases hp : parseAGIMessage up (processed ++ (piece ++ ['\n'])) with e' | m'
                  · rw [stripPieces_cons_term_err up processed piece p2 rest' e'
                      (Or.inr hlt) hp] at h
                    injection h with he
                    subst he
                    rw [hglue, hg]
                    exact stripPieces_cons_term_err up processed piece g1 grest e'
                      (Or.inr hlt) hp
                  · rw [stripPieces_cons_term_ok up processed piece p2 rest' m'
                      (Or.inr hlt) hp] at h
                    cases h
              case NetworkStart =>
                  rw [stripPieces_cons_ns up processed piece p2 rest' hlt] at h
                  cases h
              case Unknown =>
                  rw [stripPieces_cons_unknown up processed piece p2 rest' hlt] at h
                  rw [hglue, hg, stripPieces_cons_unknown up processed piece g1 grest hlt,
                    ← hg]
                  exact (ih _).2 e h

theorem stripOne_extend_msg (up : Str → Option UrlM) (x y : Str) (m : AGIMessage)
    (rest : Str) (h : stripOne up x = .msg m rest false) :
    stripOne up (x ++ y) = .msg m (rest ++ y) false := by
  by_cases hx : x = []
  · subst hx; rw [stripOne, if_pos rfl] at h; cases h
  · rw [stripOne, if_neg hx] at h
    have hxy : x ++ y ≠ [] := fun hc => hx (List.append_eq_nil.mp hc).1
    rw [stripOne, if_neg hxy, splitChar_append]
    have hext := (stripPieces_extend up (splitChar '\n' y) (splitChar_ne_nil _ _)
      (splitChar '\n' x) []).1 m rest h
    rw [joinNL_splitChar] at hext
    exact hext

theorem stripOne_extend_fail (up : Str → Option UrlM) (x y : Str) (e : AGIParseError)
    (h : stripOne up x = .fail e) : stripOne up (x ++ y) = .fail e := by
  by_cases hx : x = []
  · subst hx; rw [stripOne, if_pos rfl] at h; cases h
  · rw [stripOne, if_neg hx] at h
    have hxy : x ++ y ≠ [] := fun hc => hx (List.append_eq_nil.mp hc).1
    rw [stripOne, if_neg hxy, splitChar_append]
    exact (stripPieces_extend up (splitChar '\n' y) (splitChar_ne_nil _ _)
      (splitChar '\n' x) []).2 e h

theorem stripPieces_msg_info (up : Str → Option UrlM) :
    ∀ (ps : List Str) (processed : Str) (m : AGIMessage) (rest : Str) (fl : Bool),
      stripPieces up processed ps = .msg m rest fl →
      (fl = false ∧ rest.length < (joinNL ps).length) ∨
        (rest = [] ∧ fl = true ∧ m ≠ .NetworkStart) := by
  intro ps
  induction ps with
  | nil => intro processed m rest fl h; cases h
  | cons piece ps' ih =>
      intro processed m rest fl h
      cases ps' with
      | nil =>
          rw [stripPieces] at h
          rcases stripNoNewline_shape up (processed ++ piece) with hs | hs | ⟨m', hs, hm'⟩ <;>
            rw [hs] at h
          · cases h
          · cases h
          · injection h with hm hr hfl
            subst hm; subst hr
            exact Or.inr ⟨rfl, hfl.symm, hm'⟩
      | cons p2 rest' =>
          have hlen : (joinNL (p2 :: rest')).length < (joinNL (piece :: p2 :: rest')).length := by
            rw [show joinNL (piece :: p2 :: rest') = piece ++ '\n' :: joinNL (p2 :: rest')
              from joinNL_cons piece (p2 :: rest') (by simp)]
            simp
            omega
          rcases hlt : lineType (piece ++ ['\n']) with _ | lt
          · rw [stripPieces_cons_panic up processed piece p2 rest' hlt] at h; cases h
          · cases lt
            case Empty =>
                rcases hp : parseAGIMessage up (processed ++ (piece ++ ['\n'])) with e' | m'
                · rw [stripPieces_cons_term_err up processed piece p2 rest' e'
                    (Or.inl hlt) hp] at h
                  cases h
                · rw [stripPieces_cons_term_ok up processed piece p2 rest' m'
                    (Or.inl hlt) hp] at h
                  injection h with hm hr hfl
                  subst hr
                  exact Or.inl ⟨hfl.symm, hlen⟩
            case Status =>
                rcases hp : parseAGIMessage up (processed ++ (piece ++ ['\n'])) with e' | m'
                · rw [stripPieces_cons_term_err up processed piece p2 rest' e'
                    (Or.inr hlt) hp] at h
                  cases h
                · rw [stripPieces_cons_term_ok up processed piece p2 rest' m'
                    (Or.inr hlt) hp] at h
                  injection h with hm hr hfl
                  subst hr
                  exact Or.inl ⟨hfl.symm, hlen⟩
            case NetworkStart =>
                rw [stripPieces_cons_ns up processed piece p2 rest' hlt] at h
                injection h with hm hr hfl
                subst hr
                exact Or.inl ⟨hfl.symm, hlen⟩
            case Unknown =>
                rw [stripPieces_cons_unknown up processed piece p2 rest' hlt] at h
                rcases ih _ m rest fl h with ⟨hfl, hl⟩ | hr
                · exact Or.inl ⟨hfl, lt_trans hl hlen⟩
                · exact Or.inr hr

theorem stripOne_msg_len (up : Str → Option UrlM) (b : Str) (m : AGIMessage)
    (rest : Str) (fl : Bool) (h : stripOne up b = .msg m rest fl) :
    rest.length < b.length := by
  by_cases hb : b = []
  · subst hb; rw [stripOne, if_pos rfl] at h; cases h
  · rw [stripOne, if_neg hb] at h
    rcases stripPieces_msg_info up _ _ _ _ _ h with ⟨_, hl⟩ | ⟨hr, _, _⟩
    · rw [joinNL_splitChar] at hl; exact hl
    · subst hr
      simp only [List.length_nil]
      exact List.length_pos.mpr hb

theorem stripOne_flush_info (up : Str → Option UrlM) (b : Str) (m : AGIMessage)
    (rest : Str) (h : stripOne up b = .msg m rest true) :
    rest = [] ∧ m ≠ .NetworkStart := by
  by_cases hb : b = []
  · subst hb; rw [stripOne, if_pos rfl] at h; cases h
  · rw [stripOne, if_neg hb] at h
    rcases stripPieces_msg_info up _ _ _ _ _ h with ⟨hfl, _⟩ | ⟨hr, _, hm⟩
    · cases hfl
    · exact ⟨hr, hm⟩

theorem app_cancel_left {α : Type} (l l1 l2 : List α) (h : l ++ l1 = l ++ l2) : l1 = l2 := by
  induction l with
  | nil => exact h
  | cons a t ih =>
      rw [List.cons_append, List.cons_append] at h
      injection h with _ h2
      exact ih h2

theorem peelCont_mono (up : Str → Option UrlM) :
    ∀ (n : Nat) (buf : Str) (res : List AGIMessage) (f1 f2 : Nat),
      buf.length < f1 → buf.length < f2 → buf.length ≤ n →
      peelCont up f1 res buf = peelCont up f2 res buf := by
  intro n
  induction n with
  | zero =>
      intro buf res f1 f2 h1 h2 hn
      have hb : buf = [] := List.length_eq_zero.mp (Nat.le_zero.mp hn)
      subst hb
      match f1, f2, h1, h2 with
      | g1 + 1, g2 + 1, _, _ => rfl
  | succ n ih =>
      intro buf res f1 f2 h1 h2 hn
      match f1, f2, h1, h2 with
      | g1 + 1, g2 + 1, h1, h2 =>
        rw [peelCont, peelCont]
        rcases hs : stripOne up buf with _ | e | _ | ⟨m, rest, flush⟩
        · rfl
        · rfl
        · rfl
        · dsimp only
          by_cases hc : m = AGIMessage.NetworkStart ∧ res ≠ []
          · rw [if_pos hc, if_pos hc]
          · rw [if_neg hc, if_neg hc]
            have hlen := stripOne_msg_len up buf m rest flush hs
            rw [ih rest (res ++ [m]) g1 g2 (by omega) (by omega) (by omega)]

theorem peelA_eq (up : Str → Option UrlM) (res : List AGIMessage) (buf : Str) :
    peelA up res buf =
      (match stripOne up buf with
       | .panic => .panic
       | .fail e => .fail e
       | .more => .ok res buf false
       | .msg m rest flush =>
           if m = AGIMessage.NetworkStart ∧ res ≠ [] then
             .fail .NetworkStartAfterOtherMessage
           else
             match peelA up (res ++ [m]) rest with
             | .ok ms r fl => .ok ms r (flush || fl)
             | other => other) := by
  rw [peelA, peelCont]
  rcases hs : stripOne up buf with _ | e | _ | ⟨m, rest, flush⟩
  · rfl
  · rfl
  · rfl
  · dsimp only
    by_cases hc : m = AGIMessage.NetworkStart ∧ res ≠ []
    · rw [if_pos hc, if_pos hc]
    · rw [if_neg hc, if_neg hc]
      have hlen := stripOne_msg_len up buf m rest flush hs
      rw [peelA, peelCont_mono up rest.length rest (res ++ [m]) buf.length
        (rest.length + 1) (by omega) (by omega) (by omega)]

theorem peelA_nil (up : Str → Option UrlM) (res : List AGIMessage) :
    peelA up res [] = .ok res [] false := rfl

theorem peelA_prefix (up : Str → Option UrlM) :
    ∀ (n : Nat) (buf : Str), buf.length ≤ n →
      ∀ res ms r f, peelA up res buf = .ok ms r f → ∃ tail, ms = res ++ tail := by
  intro n
  induction n with
  | zero =>
      intro buf hn res ms r f h
      have hb : buf = [] := List.length_eq_zero.mp (Nat.le_zero.mp hn)
      subst hb
      rw [peelA_nil] at h
      injection h with hms _ _
      exact ⟨[], by rw [← hms]; simp⟩
  | succ n ih =>
      intro buf hn res ms r f h
      rw [peelA_eq] at h
      rcases hs : stripOne up buf with _ | e | _ | ⟨m, rest, flush⟩ <;> rw [hs] at h
      · cases h
      · cases h
      · injection h with hms _ _
        exact ⟨[], by rw [← hms]; simp⟩
      · dsimp only at h
        by_cases hc : m = AGIMessage.NetworkStart ∧ res ≠ []
        · rw [if_pos hc] at h; cases h
        · rw [if_neg hc] at h
          have hlen := stripOne_msg_len up buf m rest flush hs
          rcases hrec : peelA up (res ++ [m]) rest with _ | e' | ⟨ms', r', fl'⟩ <;>
            rw [hrec] at h
          · cases h
          · cases h
          · injection h with hms _ _
            obtain ⟨tail, htail⟩ := ih rest (by omega) (res ++ [m]) ms' r' fl' hrec
            exact ⟨m :: tail, by rw [← hms, htail]; simp⟩

theorem peelA_comp (up : Str → Option UrlM) :
    ∀ (n : Nat) (x : Str), x.length ≤ n → ∀ res ms r,
      peelA up res x = .ok ms r false →
      ∀ y, peelA up res (x ++ y) = peelA up ms (r ++ y) := by
  intro n
  induction n with
  | zero =>
      intro x hn res ms r h y
      have hb : x = [] := List.length_eq_zero.mp (Nat.le_zero.mp hn)
      subst hb
      rw [peelA_nil] at h
      injection h with h1 h2 _
      rw [← h1, ← h2]
  | succ n ih =>
      intro x hn res ms r h y
      rw [peelA_eq] at h
      rcases hs : stripOne up x with _ | e | _ | ⟨m, rest, flush⟩ <;> rw [hs] at h
      · cases h
      · cases h
      · injection h with h1 h2 _
        rw [← h1, ← h2]
      · dsimp only at h
        by_cases hc : m = AGIMessage.NetworkStart ∧ res ≠ []
        · rw [if_pos hc] at h; cases h
        · rw [if_neg hc] at h
          rcases hrec : peelA up (res ++ [m]) rest with _ | e' | ⟨ms', r', fl'⟩ <;>
            rw [hrec] at h
          · cases h
          · cases h
          · injection h with h1 h2 h3
            obtain ⟨hflush, hfl'⟩ := Bool.or_eq_false_iff.mp h3
            subst hflush
            subst hfl'
            have hlen := stripOne_msg_len up x m rest false hs
            have hsx := stripOne_extend_msg up x y m rest hs
            rw [peelA_eq, hsx]
            dsimp only
            rw [if_neg hc, ih rest (by omega) (res ++ [m]) ms' r' hrec y, h1, h2]
            rcases hz : peelA up ms (r ++ y) with _ | ez | ⟨az, bz, cz⟩
            · rfl
            · rfl
            · simp

theorem peelA_comp_fail (up : Str → Option UrlM) :
    ∀ (n : Nat) (x : Str), x.length ≤ n → ∀ res e,
      peelA up res x = .fail e → ∀ y, peelA up res (x ++ y) = .fail e := by
  intro n
  induction n with
  | zero =>
      intro x hn res e h y
      have hb : x = [] := List.length_eq_zero.mp (Nat.le_zero.mp hn)
      subst hb
      rw [peelA_nil] at h
      cases h
  | succ n ih =>
      intro x hn res e h y
      rw [peelA_eq] at h
      rcases hs : stripOne up x with _ | e' | _ | ⟨m, rest, flush⟩ <;> rw [hs] at h
      · cases h
      · injection h with he
        subst he
        rw [peelA_eq, stripOne_extend_fail up x y e' hs]
      · cases h
      · dsimp only at h
        have hflush : flush = false := by
          by_cases hf : flush = true
          · subst hf
            obtain ⟨hrest, _⟩ := stripOne_flush_info up x m rest hs
            subst hrest
            by_cases hc : m = AGIMessage.NetworkStart ∧ res ≠ []
            · rw [if_pos hc] at h
              injection h with he
              subst he
              have hnotns := (stripOne_flush_info up x m [] hs).2
              exact absurd hc.1 hnotns
            · rw [if_neg hc, peelA_nil] at h
              cases h
          · exact Bool.eq_false_iff.mpr hf
        subst hflush
        by_cases hc : m = AGIMessage.NetworkStart ∧ res ≠ []
        · rw [if_pos hc] at h
          injection h with he
          subst he
          rw [peelA_eq, stripOne_extend_msg up x y m rest hs]
          dsimp only
          rw [if_pos hc]
        · rw [if_neg hc] at h
          rcases hrec : peelA up (res ++ [m]) rest with _ | e'' | ⟨ms', r', fl'⟩ <;>
            rw [hrec] at h
          · cases h
          · injection h with he
            subst he
            have hlen := stripOne_msg_len up x m rest false hs
            rw [peelA_eq, stripOne_extend_msg up x y m rest hs]
            dsimp only
            rw [if_neg hc, ih rest (by omega) (res ++ [m]) e'' hrec y]
          · cases h


theorem peelA_ns_info (up : Str → Option UrlM) :
    ∀ (n : Nat) (buf : Str), buf.length ≤ n → ∀ res new r f,
      peelA up res buf = .ok (res ++ new) r f →
      AGIMessage.NetworkStart ∈ new →
      res = [] ∧ new.head? = some AGIMessage.NetworkStart := by
  intro n
  induction n with
  | zero =>
      intro buf hn res new r f h hmem
      have hb : buf = [] := List.length_eq_zero.mp (Nat.le_zero.mp hn)
      subst hb
      rw [peelA_nil] at h
      injection h with h1 _ _
      have hnew : new = [] := by
        have := congrArg List.length h1
        simp at this
        exact this
      subst hnew
      cases hmem
  | succ n ih =>
      intro buf hn res new r f h hmem
      rw [peelA_eq] at h
      rcases hs : stripOne up buf with _ | e | _ | ⟨m, rest, flush⟩ <;> rw [hs] at h
      · cases h
      · cases h
      · injection h with h1 _ _
        have hnew : new = [] := by
          have := congrArg List.length h1
          simp at this
          exact this
        subst hnew
        cases hmem
      · dsimp only at h
        by_cases hc : m = AGIMessage.NetworkStart ∧ res ≠ []
        · rw [if_pos hc] at h; cases h
        · rw [if_neg hc] at h
          rcases hrec : peelA up (res ++ [m]) rest with _ | e' | ⟨ms', r', fl'⟩ <;>
            rw [hrec] at h
          · cases h
          · cases h
          · injection h with h1 h2 h3
            obtain ⟨tail, htail⟩ := peelA_prefix up rest.length rest (le_refl _)
              (res ++ [m]) ms' r' fl' hrec
            have hnew : new = m :: tail := by
              apply app_cancel_left res
              rw [← h1, htail]
              simp
            subst hnew
            by_cases hm : m = AGIMessage.NetworkStart
            · subst hm
              have hres : res = [] := by
                by_contra hres
                exact hc ⟨rfl, hres⟩
              exact ⟨hres, rfl⟩
            · have hmem' : AGIMessage.NetworkStart ∈ tail := by
                rcases List.mem_cons.mp hmem with hx | hx
                · exact absurd hx.symm hm
                · exact hx
              have hlen := stripOne_msg_len up buf m rest flush hs
              have := ih rest (by omega) (res ++ [m]) tail r' fl'
                (by rw [hrec, htail]) hmem'
              exact absurd this.1 (by simp)

theorem peelA_res_swap (up : Str → Option UrlM) :
    ∀ (n : Nat) (buf : Str), buf.length ≤ n → ∀ res new r f,
      peelA up res buf = .ok (res ++ new) r f →
      AGIMessage.NetworkStart ∉ new →
      ∀ res2, peelA up res2 buf = .ok (res2 ++ new) r f := by
  intro n
  induction n with
  | zero =>
      intro buf hn res new r f h hns res2
      have hb : buf = [] := List.length_eq_zero.mp (Nat.le_zero.mp hn)
      subst hb
      rw [peelA_nil] at h
      injection h with h1 h2 h3
      have hnew : new = [] := by
        have := congrArg List.length h1
        simp at this
        exact this
      subst hnew
      rw [peelA_nil, ← h2, ← h3]
      simp
  | succ n ih =>
      intro buf hn res new r f h hns res2
      rw [peelA_eq] at h
      rcases hs : stripOne up buf with _ | e | _ | ⟨m, rest, flush⟩ <;> rw [hs] at h
      · cases h
      · cases h
      · injection h with h1 h2 h3
        have hnew : new = [] := by
          have := congrArg List.length h1
          simp at this
          exact this
        subst hnew
        rw [peelA_eq, hs, ← h2, ← h3]
        simp
      · dsimp only at h
        by_cases hc : m = AGIMessage.NetworkStart ∧ res ≠ []
        · rw [if_pos hc] at h; cases h
        · rw [if_neg hc] at h
          rcases hrec : peelA up (res ++ [m]) rest with _ | e' | ⟨ms', r', fl'⟩ <;>
            rw [hrec] at h
          · cases h
          · cases h
          · injection h with h1 h2 h3
            obtain ⟨tail, htail⟩ := peelA_prefix up rest.length rest (le_refl _)
              (res ++ [m]) ms' r' fl' hrec
            have hnew : new = m :: tail := by
              apply app_cancel_left res
              rw [← h1, htail]
              simp
            subst hnew
            have hm : m ≠ AGIMessage.NetworkStart := by
              intro hmx
              exact hns (List.mem_cons.mpr (Or.inl hmx.symm))
            have hlen := stripOne_msg_len up buf m rest flush hs
            have hrec2 := ih rest (by omega) (res ++ [m]) tail r' fl'
              (by rw [hrec, htail]) (fun hx => hns (List.mem_cons_of_mem m hx))
              (res2 ++ [m])
            rw [peelA_eq, hs]
            dsimp only
            rw [if_neg (by intro hx; exact hm hx.1), hrec2]
            dsimp only
            rw [h2, h3]
            have hz : res2 ++ [m] ++ tail = res2 ++ m :: tail := by simp
            rw [hz]

theorem peelA_last_more (up : Str → Option UrlM) :
    ∀ (n : Nat) (buf : Str), buf.length ≤ n → ∀ res ms r f,
      peelA up res buf = .ok ms r f → stripOne up r = .more := by
  intro n
  induction n with
  | zero =>
      intro buf hn res ms r f h
      have hb : buf = [] := List.length_eq_zero.mp (Nat.le_zero.mp hn)
      subst hb
      rw [peelA_nil] at h
      injection h with _ h2 _
      rw [← h2]
      rfl
  | succ n ih =>
      intro buf hn res ms r f h
      rw [peelA_eq] at h
      rcases hs : stripOne up buf with _ | e | _ | ⟨m, rest, flush⟩ <;> rw [hs] at h
      · cases h
      · cases h
      · injection h with _ h2 _
        rw [← h2]
        exact hs
      · dsimp only at h
        by_cases hc : m = AGIMessage.NetworkStart ∧ res ≠ []
        · rw [if_pos hc] at h; cases h
        · rw [if_neg hc] at h
          rcases hrec : peelA up (res ++ [m]) rest with _ | e' | ⟨ms', r', fl'⟩ <;>
            rw [hrec] at h
          · cases h
          · cases h
          · injection h with _ h2 _
            have hlen := stripOne_msg_len up buf m rest flush hs
            rw [← h2]
            exact ih rest (by omega) (res ++ [m]) ms' r' fl' hrec

theorem peelA_first_step (up : Str → Option UrlM) (buf : Str) (res : List AGIMessage)
    (m : AGIMessage) (tl : List AGIMessage) (r : Str)
    (h : peelA up res buf = .ok (res ++ (m :: tl)) r false) :
    ∃ rest, stripOne up buf = .msg m rest false ∧
      peelA up (res ++ [m]) rest = .ok (res ++ (m :: tl)) r false := by
  rw [peelA_eq] at h
  rcases hs : stripOne up buf with _ | e | _ | ⟨m', rest, flush⟩ <;> rw [hs] at h
  · cases h
  · cases h
  · injection h with h1 _ _
    have := congrArg List.length h1
    simp at this
  · dsimp only at h
    by_cases hc : m' = AGIMessage.NetworkStart ∧ res ≠ []
    · rw [if_pos hc] at h; cases h
    · rw [if_neg hc] at h
      rcases hrec : peelA up (res ++ [m']) rest with _ | e' | ⟨ms', r', fl'⟩ <;>
        rw [hrec] at h
      · cases h
      · cases h
      · injection h with h1 h2 h3
        obtain ⟨hflush, hfl'⟩ := Bool.or_eq_false_iff.mp h3
        subst hflush
        subst hfl'
        obtain ⟨tail, htail⟩ := peelA_prefix up rest.length rest (le_refl _)
          (res ++ [m']) ms' r' false hrec
        have hmt : m :: tl = m' :: tail := by
          apply app_cancel_left res
          rw [← h1, htail]
          simp
        injection hmt with hm htl
        subst hm
        refine ⟨rest, rfl, ?_⟩
        rw [hrec, htail, htl, h2]
        have hz : res ++ [m] ++ tail = res ++ m :: tail := by simp
        rw [hz]

theorem peelA_ns_guard (up : Str → Option UrlM) (x y : Str)
    (ms1 : List AGIMessage) (r1 : Str) (fl1 : Bool) (G M : List AGIMessage)
    (rest : Str) (f : Bool)
    (hh : peelA up [] x = .ok ms1 r1 fl1)
    (hns : AGIMessage.NetworkStart ∈ ms1)
    (h2 : peelA up G (x ++ y) = .ok M rest f) :
    G = [] := by
  by_contra hG
  have hinfo := peelA_ns_info up x.length x le_rfl [] ms1 r1 fl1 hh hns
  rw [peelA_eq] at hh
  rcases hs0 : stripOne up x with _ | e0 | _ | ⟨m0, rest0, flush0⟩ <;> rw [hs0] at hh
  · cases hh
  · cases hh
  · injection hh with hh1 _ _
    rw [← hh1] at hns
    cases hns
  · dsimp only at hh
    rw [if_neg (by intro hx; exact hx.2 rfl)] at hh
    rcases hrec : peelA up ([] ++ [m0]) rest0 with _ | e' | ⟨ms', r', fl'⟩ <;> rw [hrec] at hh
    · cases hh
    · cases hh
    · injection hh with hh1 _ _
      obtain ⟨tail, htail⟩ := peelA_prefix up rest0.length rest0 le_rfl
        ([] ++ [m0]) ms' r' fl' hrec
      have hm0 : m0 = AGIMessage.NetworkStart := by
        have hhd : ms1.head? = some m0 := by
          rw [← hh1, htail]
          rfl
        rw [hinfo.2] at hhd
        injection hhd with hhd2
        exact hhd2.symm
      subst hm0
      have hflush0 : flush0 = false := by
        cases flush0 with
        | false => rfl
        | true => exact absurd rfl (stripOne_flush_info up x _ rest0 hs0).2
      subst hflush0
      have hext := stripOne_extend_msg up x y AGIMessage.NetworkStart rest0 hs0
      rw [peelA_eq, hext] at h2
      dsimp only at h2
      rw [if_pos ⟨rfl, hG⟩] at h2
      cases h2

theorem feed_glue (up : Str → Option UrlM) :
    ∀ (cs : List Str) (st : Str) (G M : List AGIMessage) (rest : Str) (f : Bool)
      (msgs : List AGIMessage) (rest2 : Str) (flags : List Bool),
      stripOne up st = .more →
      peelA up G (st ++ cs.flatten) = .ok M rest f →
      feedFrom up st cs = .ok msgs rest2 flags →
      (∀ i, i + 1 < cs.length → flags.getD i false = false) →
      G ++ msgs = M ∧ rest2 = rest := by
  intro cs
  induction cs with
  | nil =>
      intro st G M rest f msgs rest2 flags hmore h2 h3 _
      rw [feedFrom] at h3
      injection h3 with h31 h32 h33
      subst h31
      subst h32
      rw [List.flatten_nil, List.append_nil, peelA_eq, hmore] at h2
      dsimp only at h2
      injection h2 with ha hb _
      exact ⟨by rw [List.append_nil]; exact ha, hb.symm ▸ rfl⟩
  | cons c cs' ih =>
      intro st G M rest f msgs rest2 flags hmore h2 h3 h4
      rw [List.flatten_cons, ← List.append_assoc] at h2
      rw [feedFrom] at h3
      rcases hh : handleSingle up st c with _ | e | ⟨ms1, r1, fl1⟩ <;> rw [hh] at h3
      · cases h3
      · cases h3
      · dsimp only at h3
        rcases hf : feedFrom up r1 cs' with _ | e2 | ⟨ms2, r2, fls2⟩ <;> rw [hf] at h3
        · cases h3
        · cases h3
        · injection h3 with h31 h32 h33
          subst h31
          subst h32
          subst h33
          rw [handleSingle] at hh
          have hr1more := peelA_last_more up (st ++ c).length (st ++ c) le_rfl [] ms1 r1 fl1 hh
          have key : peelA up G (st ++ c) = .ok (G ++ ms1) r1 fl1 := by
            by_cases hns : AGIMessage.NetworkStart ∈ ms1
            · have hG := peelA_ns_guard up (st ++ c) cs'.flatten ms1 r1 fl1 G M rest f hh hns h2
              subst hG
              exact hh
            · exact peelA_res_swap up (st ++ c).length (st ++ c) le_rfl [] ms1 r1 fl1 hh hns G
          by_cases hcs : cs' = []
          · subst hcs
            rw [feedFrom] at hf
            injection hf with hf1 hf2 hf3
            subst hf1
            subst hf2
            rw [List.flatten_nil, List.append_nil] at h2
            rw [key] at h2
            injection h2 with ha hb _
            exact ⟨by rw [List.append_nil]; exact ha, hb⟩
          · have hpos : 0 < cs'.length := List.length_pos.mpr hcs
            have hfl1 : fl1 = false := by
              have h40 := h4 0 (by simp only [List.length_cons]; omega)
              simpa using h40
            subst hfl1
            have hcomp := peelA_comp up (st ++ c).length (st ++ c) le_rfl G (G ++ ms1) r1
              key cs'.flatten
            rw [hcomp] at h2
            have hflags : ∀ i, i + 1 < cs'.length → fls2.getD i false = false := by
              intro i hi
              have := h4 (i + 1) (by simp only [List.length_cons]; omega)
              simpa using this
            obtain ⟨ha, hb⟩ := ih r1 (G ++ ms1) M rest f ms2 r2 fls2 hr1more h2 hf hflags
            refine ⟨?_, hb⟩
            rw [← ha]
            simp

/-- C2 (amended): fragmentation invariance holds only for partitions in
which no non-final chunk triggers the opportunistic no-newline status
parse (and which themselves complete successfully): if the whole byte
string fed as one chunk yields messages `M` with final buffer `R`, and an
in-order partition also completes with every non-final chunk's
opportunistic-parse flag false, then the partition yields the same `M`
and the same final buffer. The counterexample theorem shows the claim is
false without the flag condition. -/
theorem C2_fragmentation_amended (up : Str → Option UrlM) (B : Str) (cs : List Str)
    (M msgs : List AGIMessage) (R rest2 : Str) (f : Bool) (flags : List Bool)
    (hpart : cs.flatten = B)
    (hwhole : feedFrom up [] [B] = .ok M R [f])
    (hsplit : feedFrom up [] cs = .ok msgs rest2 flags)
    (hflags : ∀ i, i + 1 < cs.length → flags.getD i false = false) :
    msgs = M ∧ rest2 = R := by
  rw [feedFrom] at hwhole
  rcases hB : handleSingle up [] B with _ | e | ⟨ms1, r1, fl1⟩ <;> rw [hB] at hwhole
  · cases hwhole
  · cases hwhole
  · dsimp only at hwhole
    rw [show feedFrom up r1 ([] : List Str) = FeedRes.ok [] r1 [] from rfl] at hwhole
    injection hwhole with hw1 hw2 _
    rw [handleSingle] at hB
    rw [← hpart] at hB
    have hmore : stripOne up [] = .more := by
      rw [stripOne, if_pos rfl]
    obtain ⟨ha, hb⟩ := feed_glue up cs [] [] ms1 r1 fl1 msgs rest2 flags hmore hB hsplit hflags
    constructor
    · rw [← hw1, ← ha]
      simp
    · rw [← hw2, hb]

theorem C2_fragmentation_amended_witness :
    [AGIMessage.Status (.Ok (strL ("1")) (some (strL ("done"))))] =
      [AGIMessage.Status (.Ok (strL ("1")) (some (strL ("done"))))] ∧ ([] : Str) = [] :=
  C2_fragmentation_amended urlParseSimple (strL ("200 result=1 done\n"))
    [strL ("200 "), strL ("result=1 done\n")]
    [AGIMessage.Status (.Ok (strL ("1")) (some (strL ("done"))))]
    [AGIMessage.Status (.Ok (strL ("1")) (some (strL ("done"))))]
    [] [] false [false, false]
    (by decide) (by decide) (by decide)
    (fun i hi => by
      have h0 : i = 0 := by
        simp only [List.length_cons, List.length_nil] at hi
        omega
      subst h0
      rfl)

/-- Error type of the typed-response specialization
(`AGIStatusParseError`, src/command.rs). -/
structure AGIStatusParseError where
  result : Str
  opData : Option Str
  responseToCommand : Str
deriving DecidableEq, Repr

/-- Rust `str::trim_matches` with the pattern `|c| c == '(' || c == ')'`
(src/command/get_full_variable.rs:105): repeatedly remove matching
characters from both ends. -/
def trimMatchesParens (s : Str) : Str :=
  ((s.dropWhile (fun c => c = '(' ∨ c = ')')).reverse.dropWhile
    (fun c => c = '(' ∨ c = ')')).reverse

/-- `impl TryFrom<(&str, Option<&str>)> for GetFullVariableResponse`
(src/command/get_full_variable.rs:98-124): result must parse as `i32`;
`1` requires operational data and yields its parenthesis-trimmed text,
`0` yields no value, anything else is an `AGIStatusParseError`. The Rust
`match` on `Ok(1) / Ok(0) / _` is first-match, hence the if-chain. -/
def gfvTryFrom (result : Str) (opData : Option Str) :
    Except AGIStatusParseError (Option Str) :=
  if parseI32 result = some 1 then
    (match opData with
     | some x => .ok (some (trimMatchesParens x))
     | none => .error ⟨result, none, strL ("GET FULL VARIABLE")⟩)
  else if parseI32 result = some 0 then .ok none
  else .error ⟨result, opData, strL ("GET FULL VARIABLE")⟩

/-- The typed responses of `send_command` for `GetFullVariable`
(`AGIResponse<GetFullVariableResponse>`, src/connection.rs:178-194). -/
inductive AGIResponseGFV where
  | Ok (value : Option Str)
  | Invalid
  | DeadChannel
  | EndUsage
deriving DecidableEq, Repr

/-- Specialization error of `agi_response_as_specialized_status`. -/
inductive AGIErrorGFV where
  | AGIStatusUnspecializable (status : AGIStatusGeneric) (cmd : Str)
deriving DecidableEq, Repr

/-- `Connection::agi_response_as_specialized_status` for `GetFullVariable`
(src/connection.rs:172-195): specialize a generic status via `try_from`. -/
def specializeGFV : AGIStatusGeneric → Except AGIErrorGFV AGIResponseGFV
  | .Ok result opData =>
      (match gfvTryFrom result opData with
       | .ok v => .ok (.Ok v)
       | .error e =>
           .error (.AGIStatusUnspecializable (.Ok result opData) e.responseToCommand))
  | .Invalid => .ok .Invalid
  | .DeadChannel => .ok .DeadChannel
  | .EndUsage => .ok .EndUsage

/-- Counterexample to C5 as stated: the wire line
`200 result=1 (the value)\n` is parsed by the status parser with
operational data `"(the"` (only the third space-separated token), so the
typed `GetFullVariable` response value is `"the"`, not `"the value"`. -/
theorem C5_gfv_counterexample :
    parseStatusGeneric (strL ("200 result=1 (the value)\n")) =
      .ok (.Ok (strL ("1")) (some (strL ("(the")))) ∧
    specializeGFV (.Ok (strL ("1")) (some (strL ("(the")))) =
      .ok (.Ok (some (strL ("the")))) ∧
    strL ("the") ≠ strL ("the value") := by
  refine ⟨by decide, by decide, by decide⟩

/-- C5 (amended): for `result=1` the operational data is required and the
typed value is its parenthesis-trimmed text; for `result=0` the value is
`None`; any other result (unparsable as `i32`, or parsable but neither 0
nor 1) is an `AGIStatusParseError`. On the wire, the operational data
captured by the status parser is only the third space-separated token, so
the reply `200 result=1 (the value)\n` yields the typed value `"the"`
(not `"the value"` as C5 states). -/
theorem C5_gfv_amended (r x : Str) (op : Option Str) :
    (parseI32 r = some 1 →
        gfvTryFrom r (some x) = .ok (some (trimMatchesParens x)) ∧
        gfvTryFrom r none = .error ⟨r, none, strL ("GET FULL VARIABLE")⟩) ∧
    (parseI32 r = some 0 → gfvTryFrom r op = .ok none) ∧
    (parseI32 r ≠ some 1 → parseI32 r ≠ some 0 →
        gfvTryFrom r op = .error ⟨r, op, strL ("GET FULL VARIABLE")⟩) ∧
    (parseStatusGeneric (strL ("200 result=1 (the value)\n")) =
        .ok (.Ok (strL ("1")) (some (strL ("(the")))) ∧
      specializeGFV (.Ok (strL ("1")) (some (strL ("(the")))) =
        .ok (.Ok (some (strL ("the"))))) := by
  refine ⟨?_, ?_, ?_, by decide, by decide⟩
  · intro h1
    constructor
    · rw [gfvTryFrom.eq_def, if_pos h1]
    · rw [gfvTryFrom.eq_def, if_pos h1]
  · intro h0
    have h1 : parseI32 r ≠ some 1 := by
      rw [h0]
      intro hc
      injection hc with hc2
      cases hc2
    rw [gfvTryFrom.eq_def, if_neg h1, if_pos h0]
  · intro h1 h0
    rw [gfvTryFrom.eq_def, if_neg h1, if_neg h0]

theorem C5_gfv_amended_witness :
    parseI32 (strL ("1")) = some 1 ∧
    gfvTryFrom (strL ("1")) (some (strL ("(the"))) = .ok (some (strL ("the"))) ∧
    parseI32 (strL ("0")) = some 0 ∧
    gfvTryFrom (strL ("0")) none = .ok none ∧
    gfvTryFrom (strL ("-1")) (some (strL ("irrelevant stuff"))) =
      .error ⟨strL ("-1"), some (strL ("irrelevant stuff")), strL ("GET FULL VARIABLE")⟩ := by
  refine ⟨by decide, ?_, by decide, ?_, ?_⟩
  · have h := ((C5_gfv_amended (strL ("1")) (strL ("(the")) none).1 (by decide)).1
    rw [h]
    decide
  · exact (C5_gfv_amended (strL ("0")) [] none).2.1 (by decide)
  · exact (C5_gfv_amended (strL ("-1")) [] (some (strL ("irrelevant stuff")))).2.2.1
      (by decide) (by decide)

/-- A UTF-8 continuation byte (`0b10xxxxxx`). -/
def isUtf8Cont (b : Nat) : Bool := decide (0x80 ≤ b ∧ b ≤ 0xBF)

/-- Strict UTF-8 decoding, Rust `core::str::from_utf8` (fuelled):
rejects truncated sequences, stray continuation bytes, overlong
encodings, surrogates and code points beyond U+10FFFF. -/
def decodeUtf8F : Nat → List Nat → Option Str
  | 0, _ => none
  | _ + 1, [] => some []
  | fu + 1, b :: t =>
      if b < 0x80 then (decodeUtf8F fu t).map (Char.ofNat b :: ·)
      else if b < 0xC2 then none
      else if b < 0xE0 then
        (match t with
         | b2 :: t2 =>
             if isUtf8Cont b2 then
               (decodeUtf8F fu t2).map (Char.ofNat ((b - 0xC0) * 64 + (b2 - 0x80)) :: ·)
             else none
         | [] => none)
      else if b < 0xF0 then
        (match t with
         | b2 :: b3 :: t3 =>
             if isUtf8Cont b2 ∧ isUtf8Cont b3 ∧
                 0x800 ≤ (b - 0xE0) * 4096 + (b2 - 0x80) * 64 + (b3 - 0x80) ∧
                 ¬(0xD800 ≤ (b - 0xE0) * 4096 + (b2 - 0x80) * 64 + (b3 - 0x80) ∧
                   (b - 0xE0) * 4096 + (b2 - 0x80) * 64 + (b3 - 0x80) ≤ 0xDFFF) then
               (decodeUtf8F fu t3).map
                 (Char.ofNat ((b - 0xE0) * 4096 + (b2 - 0x80) * 64 + (b3 - 0x80)) :: ·)
             else none
         | _ => none)
      else if b < 0xF5 then
        (match t with
         | b2 :: b3 :: b4 :: t4 =>
             if isUtf8Cont b2 ∧ isUtf8Cont b3 ∧ isUtf8Cont b4 ∧
                 0x10000 ≤ (b - 0xF0) * 262144 + (b2 - 0x80) * 4096 +
                   (b3 - 0x80) * 64 + (b4 - 0x80) ∧
                 (b - 0xF0) * 262144 + (b2 - 0x80) * 4096 +
                   (b3 - 0x80) * 64 + (b4 - 0x80) ≤ 0x10FFFF then
               (decodeUtf8F fu t4).map
                 (Char.ofNat ((b - 0xF0) * 262144 + (b2 - 0x80) * 4096 +
                   (b3 - 0x80) * 64 + (b4 - 0x80)) :: ·)
             else none
         | _ => none)
      else none

/-- Decoding with always-sufficient fuel. -/
def decodeUtf8 (bs : List Nat) : Option Str := decodeUtf8F (bs.length + 1) bs

/-- Rust `as_utf8.find('\0').unwrap_or(as_utf8.len())`
(src/connection.rs:209): the byte index of the first NUL character, or
the byte length of the whole string. -/
def firstNulByteIdx : Str → Nat
  | [] => 0
  | c :: t => if c = '\x00' then 0 else charBytes c + firstNulByteIdx t

/-- `Connection::read_single_call` (src/connection.rs:198-214) after a
read that produced `bytes`: zero-pad to 2048 bytes, require the whole
buffer to be valid UTF-8, then feed `&as_utf8[0..first_zero_index]` to
the wire parser. The outer `Option` is the byte-slice panic. -/
def readSingleCallFeed (bytes : List Nat) : Option (Except AGIParseError Str) :=
  if bytes.length = 0 then some (.error .NoBytes)
  else
    (match decodeUtf8 (bytes ++ List.replicate (2048 - bytes.length) 0) with
     | none => some (.error .NotUtf8)
     | some s => (byteTake (firstNulByteIdx s) s).map .ok)

theorem charBytes_pos (c : Char) : 1 ≤ charBytes c := by
  rw [charBytes]
  split
  · omega
  · split
    · omega
    · split
      · omega
      · omega

theorem byteTake_cons_add (c : Char) (k : Nat) (t : Str) :
    byteTake (charBytes c + k) (c :: t) = (byteTake k t).map (c :: ·) := by
  have hp := charBytes_pos c
  obtain ⟨m, hm⟩ : ∃ m, charBytes c + k = m + 1 := ⟨charBytes c + k - 1, by omega⟩
  rw [hm, byteTake, if_neg (by omega), show m + 1 - charBytes c = k from by omega]

theorem byteTake_nul (s : Str) :
    byteTake (firstNulByteIdx s) s = some (s.takeWhile (fun c => c ≠ '\x00')) := by
  induction s with
  | nil => rfl
  | cons c t ih =>
      by_cases hc : c = '\x00'
      · subst hc
        rw [firstNulByteIdx, if_pos rfl]
        simp [byteTake, List.takeWhile_cons]
      · rw [firstNulByteIdx, if_neg hc, byteTake_cons_add, ih]
        simp [List.takeWhile_cons, hc]

/-- C9: in every single TCP read whose zero-padded buffer is valid
UTF-8, the text fed to the wire parser is exactly the characters before
the first NUL: everything at or after the first NUL — including non-NUL
data after an embedded NUL — is discarded, and the byte slice at the NUL
index never panics. -/
theorem C9_nul_truncation (bytes : List Nat) (s : Str)
    (hn : bytes ≠ [])
    (hdec : decodeUtf8 (bytes ++ List.replicate (2048 - bytes.length) 0) = some s) :
    readSingleCallFeed bytes = some (.ok (s.takeWhile (fun c => c ≠ '\x00'))) := by
  rw [readSingleCallFeed.eq_def, if_neg (by simpa using hn), hdec]
  dsimp only
  rw [byteTake_nul]
  rfl

theorem decodeUtf8F_cons_ascii (fu b : Nat) (t : List Nat) (hb : b < 0x80) :
    decodeUtf8F (fu + 1) (b :: t) = (decodeUtf8F fu t).map (Char.ofNat b :: ·) := by
  rw [decodeUtf8F.eq_def]
  dsimp only
  rw [if_pos hb]

theorem decodeUtf8F_ascii (bs : List Nat) (h : ∀ b ∈ bs, b < 0x80) :
    decodeUtf8F (bs.length + 1) bs = some (bs.map Char.ofNat) := by
  induction bs with
  | nil => rfl
  | cons b t ih =>
      rw [List.length_cons,
        decodeUtf8F_cons_ascii (t.length + 1) b t (h b (List.mem_cons_self b t)),
        ih (fun x hx => h x (List.mem_cons_of_mem b hx))]
      rfl

theorem decode_witness_buf :
    decodeUtf8 ([97, 98, 0, 99, 100] ++
        List.replicate (2048 - ([97, 98, 0, 99, 100] : List Nat).length) 0) =
      some (([97, 98, 0, 99, 100] ++
        List.replicate (2048 - ([97, 98, 0, 99, 100] : List Nat).length) 0).map
          Char.ofNat) := by
  rw [show 2048 - ([97, 98, 0, 99, 100] : List Nat).length = 2043 from by decide]
  rw [decodeUtf8]
  refine decodeUtf8F_ascii _ ?_
  intro b hb
  rcases List.mem_append.mp hb with hx | hx
  · simp only [List.mem_cons, List.not_mem_nil, or_false] at hx
    rcases hx with rfl | rfl | rfl | rfl | rfl <;> norm_num
  · rw [List.eq_of_mem_replicate hx]
    norm_num

theorem C9_nul_truncation_witness :
    ([97, 98, 0, 99, 100] : List Nat) ≠ [] ∧
    readSingleCallFeed [97, 98, 0, 99, 100] = some (.ok (strL ("ab"))) := by
  refine ⟨by decide, ?_⟩
  have h := C9_nul_truncation [97, 98, 0, 99, 100]
    (([97, 98, 0, 99, 100] ++
      List.replicate (2048 - ([97, 98, 0, 99, 100] : List Nat).length) 0).map Char.ofNat)
    (by decide) decode_witness_buf
  rw [h]
  rfl

/-- `HashMap<String, String>::insert` modelled on an insertion-ordered
association list with in-place overwrite. -/
def hmInsert : List (Str × Str) → Str → Str → List (Str × Str)
  | [], k, v => [(k, v)]
  | (k', v') :: t, k, v =>
      if k' = k then (k, v) :: t else (k', v') :: hmInsert t k v

/-- Result of `Router::path_matches`: `panic` models the out-of-bounds
index `path[idx_in_path]`, `noMatch` is `None`, `matched` is
`Some((captures, wildcards))`. -/
inductive PathMatchRes where
  | panic
  | noMatch
  | matched (captures : List (Str × Str)) (wildcards : Option Str)
deriving DecidableEq, Repr

/-- The `while let` loop of `Router::path_matches`
(src/router.rs:219-236): walk the URL segments, indexing the pattern at
`idx_in_path`; a `:`-segment captures, a `*`-segment consumes the rest
of the URL, a literal segment must be equal.  `path[idx]` with `idx`
out of bounds is the panic.  (`path[idx][1..]` is safe: `:` is one
byte, so it equals dropping one character.) -/
def pmGo (path : List Str) : Nat → List (Str × Str) → List Str → PathMatchRes
  | idx, captures, [] =>
      if idx = path.length then .matched captures none else .noMatch
  | idx, captures, seg :: rest =>
      (match path[idx]? with
       | none => .panic
       | some p =>
           if startsWithL (strL (":")) p then
             pmGo path (idx + 1) (hmInsert captures (p.drop 1) seg) rest
           else if startsWithL (strL ("*")) p then
             .matched captures (some (seg ++ (rest.map (fun r => '/' :: r)).flatten))
           else if p ≠ seg then .noMatch
           else pmGo path (idx + 1) captures rest)

/-- `Router::path_matches` (src/router.rs:202-244): `None` URL path
segments match only the empty pattern. -/
def pathMatches (path : List Str) (url : UrlM) : PathMatchRes :=
  match url.pathSegments with
  | none => if path = [] then .matched [] none else .noMatch
  | some segs => pmGo path 0 [] segs

/-- A router over an abstract handler type `H`
(`Router`, src/router.rs:17-20). -/
structure RouterM (H : Type) where
  routes : List (List Str × H)
  fallback : H
deriving DecidableEq, Repr

/-- The pattern a `location` string installs:
`location.split('/').skip(1)` (src/router.rs:88); `none` models the
deliberate construction-time panics on an empty location or one not
starting with `/`. -/
def routeSegs (location : Str) : Option (List Str) :=
  if location = [] then none
  else if startsWithL (strL ("/")) location then some ((splitChar '/' location).tail)
  else none

/-- `Router::route` (src/router.rs:82-93): append the new route. -/
def routeR {H : Type} (r : RouterM H) (location : Str) (h : H) : Option (RouterM H) :=
  (routeSegs location).map (fun segs => ⟨r.routes ++ [(segs, h)], r.fallback⟩)

/-- `Router::merge` (src/router.rs:119-122): concatenate routes, keep
the first router's fallback. -/
def mergeR {H : Type} (a b : RouterM H) : RouterM H :=
  ⟨a.routes ++ b.routes, a.fallback⟩

/-- `Router::fallback` (src/router.rs:146-152). -/
def fallbackR {H : Type} (r : RouterM H) (h : H) : RouterM H :=
  ⟨r.routes, h⟩

/-- `Router::layer` (src/router.rs:180-195): wrap every currently
installed route handler, keep patterns and fallback. -/
def layerR {H : Type} (wrap : H → H) (r : RouterM H) : RouterM H :=
  ⟨r.routes.map (fun p => (p.1, wrap p.2)), r.fallback⟩

/-- Result of `Router::route_request`. -/
inductive RouteReqRes (H : Type) where
  | panic
  | found (h : H) (captures : List (Str × Str)) (wildcards : Option Str)
deriving DecidableEq, Repr

/-- The route-scanning loop of `Router::route_request`
(src/router.rs:274-280): first match wins, fallback otherwise. -/
def routeLoop {H : Type} (fallback : H) (url : UrlM) :
    List (List Str × H) → RouteReqRes H
  | [] => .found fallback [] none
  | (p, h) :: t =>
      (match pathMatches p url with
       | .panic => .panic
       | .noMatch => routeLoop fallback url t
       | .matched caps wc => .found h caps wc)

/-- `Router::route_request` (src/router.rs:253-281): panics on a
non-FastAGI request, otherwise scans the routes. -/
def routeRequest {H : Type} (r : RouterM H) (req : AGIRequestType) : RouteReqRes H :=
  match req with
  | .FastAGI url => routeLoop r.fallback url r.routes
  | .File _ => .panic

/-- What `Router::handle` does with the parsed variable dump
(src/router.rs:309-346). -/
inductive DispatchRes (H : Type) where
  | panic
  | ignoredNotFastAGI
  | dispatched (h : H) (captures : List (Str × Str)) (wildcards : Option Str)
deriving DecidableEq, Repr

/-- The dispatch step of `Router::handle` (src/router.rs:311-337): a
FastAGI request is routed (fallback included), anything else is
ignored.  No scheme inspection happens anywhere on this path. -/
def handleDispatch {H : Type} (r : RouterM H) (d : AGIVariableDump) : DispatchRes H :=
  match d.request with
  | .FastAGI url =>
      (match routeLoop r.fallback url r.routes with
       | .panic => .panic
       | .found h caps wc => .dispatched h caps wc)
  | .File _ => .ignoredNotFastAGI

/-- C1 is refuted by the code (code bug): two peer-driven panics exist.
(1) Line classification: the peer bytes `abé\n` make `line_type` slice
`line[3..]` inside the two-byte `é`, which is a char-boundary panic, so
draining the buffer aborts.  (2) Route matching: the valid route
location `/a` installs the pattern `["a"]`, yet the peer-supplied
FastAGI URL `agi://h/a/b` — one segment more than the pattern — drives
`idx_in_path` past the end and `path[idx_in_path]` panics. -/
theorem C1_panic_code_bug :
    peelA urlParseSimple [] (strL ("abé\n")) = .panic ∧
    routeSegs (strL ("/a")) = some [strL ("a")] ∧
    urlParseSimple (strL ("agi://h/a/b")) =
      some ⟨strL ("agi"), strL ("h"), some [strL ("a"), strL ("b")]⟩ ∧
    pathMatches [strL ("a")] ⟨strL ("agi"), strL ("h"), some [strL ("a"), strL ("b")]⟩ =
      .panic := by
  refine ⟨by decide, by decide, by decide, by decide⟩

/-- Counterexample to C6 as stated: nothing on the dispatch path checks
the URL scheme.  `http://example.com/a` parses as a URL, becomes a
FastAGI request, and the installed route handler for pattern `["a"]`
(location `/a`) is dispatched for it. -/
theorem C6_scheme_counterexample :
    reqFromStr urlParseSimple (strL ("http://example.com/a")) =
      .ok (.FastAGI ⟨strL ("http"), strL ("example.com"), some [strL ("a")]⟩) ∧
    handleDispatch (⟨[([strL ("a")], 1)], 0⟩ : RouterM Nat)
        { testDump with
          request := .FastAGI ⟨strL ("http"), strL ("example.com"), some [strL ("a")]⟩ } =
      .dispatched 1 [] none := by
  refine ⟨by decide, by decide⟩

/-- C6 (amended): the dispatch path performs no scheme check at all.
Routing is a function of the URL's path segments only: two parsed URLs
with the same path segments — whatever their schemes or hosts — match
the same patterns, take the same route, and are dispatched identically.
In particular a non-`agi` scheme such as `http` does dispatch route
handlers, contrary to C6 as stated. -/
theorem C6_no_scheme_check {H : Type} (r : RouterM H) (d : AGIVariableDump)
    (u1 u2 : UrlM) (hseg : u1.pathSegments = u2.pathSegments) :
    (∀ p, pathMatches p u1 = pathMatches p u2) ∧
    routeLoop r.fallback u1 r.routes = routeLoop r.fallback u2 r.routes ∧
    handleDispatch r { d with request := .FastAGI u1 } =
      handleDispatch r { d with request := .FastAGI u2 } := by
  have hpm : ∀ p, pathMatches p u1 = pathMatches p u2 := by
    intro p
    rw [pathMatches, pathMatches, hseg]
  have hloop : ∀ rs : List (List Str × H),
      routeLoop r.fallback u1 rs = routeLoop r.fallback u2 rs := by
    intro rs
    induction rs with
    | nil => rfl
    | cons q t ih =>
        rcases q with ⟨p, h⟩
        rw [routeLoop, routeLoop, hpm p, ih]
  refine ⟨hpm, hloop r.routes, ?_⟩
  rw [handleDispatch, handleDispatch]
  dsimp only
  rw [hloop r.routes]

theorem C6_no_scheme_check_witness :
    handleDispatch (⟨[([strL ("a")], 1)], 0⟩ : RouterM Nat)
        { testDump with
          request := .FastAGI ⟨strL ("http"), strL ("example.com"), some [strL ("a")]⟩ } =
      handleDispatch (⟨[([strL ("a")], 1)], 0⟩ : RouterM Nat)
        { testDump with
          request := .FastAGI ⟨strL ("agi"), strL ("h"), some [strL ("a")]⟩ } :=
  (C6_no_scheme_check ⟨[([strL ("a")], 1)], 0⟩ testDump
    ⟨strL ("http"), strL ("example.com"), some [strL ("a")]⟩
    ⟨strL ("agi"), strL ("h"), some [strL ("a")]⟩ rfl).2.2

theorem sw_colon_star (wt : Str) : startsWithL (strL (":")) ('*' :: wt) = false := by
  simp [startsWithL, strL]

theorem sw_star_star (wt : Str) : startsWithL (strL ("*")) ('*' :: wt) = true := by
  simp [startsWithL, strL]

theorem pmGo_wild (w wt : Str) (hw : w = '*' :: wt) :
    ∀ (base : List Str) (path : List Str) (idx : Nat) (caps : List (Str × Str)),
      (∀ j, path[idx + j]? = (base ++ [w])[j]?) →
      (∀ s ∈ base, startsWithL (strL (":")) s = false ∧
        startsWithL (strL ("*")) s = false) →
      pmGo path idx caps (base ++ [[]]) = .matched caps (some []) ∧
      pmGo path idx caps base = .noMatch := by
  intro base
  induction base with
  | nil =>
      intro path idx caps hseg _
      have h0 : path[idx]? = some w := by
        have := hseg 0
        simpa using this
      have hlt : idx < path.length := by
        by_contra hge
        rw [List.getElem?_eq_none (by omega)] at h0
        cases h0
      constructor
      · rw [show ([] : List Str) ++ [[]] = [([] : Str)] from rfl]
        rw [pmGo, h0, hw]
        dsimp only
        rw [if_neg (by rw [sw_colon_star]; exact Bool.false_ne_true)]
        rw [if_pos (sw_star_star wt)]
        simp
      · rw [show ([] : List Str) = ([] : List Str) from rfl, pmGo]
        rw [if_neg (by omega)]
  | cons b bt ih =>
      intro path idx caps hseg hlit
      have h0 : path[idx]? = some b := by
        have := hseg 0
        simpa using this
      have hb := hlit b (List.mem_cons_self b bt)
      have hseg' : ∀ j, path[idx + 1 + j]? = (bt ++ [w])[j]? := by
        intro j
        have := hseg (j + 1)
        rw [show idx + (j + 1) = idx + 1 + j from by omega] at this
        simpa using this
      have hrec := ih path (idx + 1) caps hseg'
        (fun s hs => hlit s (List.mem_cons_of_mem b hs))
      constructor
      · rw [List.cons_append, pmGo, h0]
        dsimp only
        rw [if_neg (by rw [hb.1]; exact Bool.false_ne_true),
          if_neg (by rw [hb.2]; exact Bool.false_ne_true),
          if_neg (fun hc => hc rfl)]
        exact hrec.1
      · rw [pmGo, h0]
        dsimp only
        rw [if_neg (by rw [hb.1]; exact Bool.false_ne_true),
          if_neg (by rw [hb.2]; exact Bool.false_ne_true),
          if_neg (fun hc => hc rfl)]
        exact hrec.2

/-- C7: a pattern ending in a trailing `*`-wildcard, whose earlier
segments are literal and equal to all of the URL's segments, matches
with the wildcard bound to the empty string exactly when the URL path
ends in a trailing slash (which contributes a final empty segment);
without the trailing slash the URL has no segment left for the wildcard
and the route does not match. -/
theorem C7_trailing_wildcard (base : List Str) (wt : Str) (u1 u2 : UrlM)
    (hlit : ∀ s ∈ base, startsWithL (strL (":")) s = false ∧
      startsWithL (strL ("*")) s = false)
    (h1 : u1.pathSegments = some (base ++ [[]]))
    (h2 : u2.pathSegments = some base) :
    pathMatches (base ++ [('*' :: wt)]) u1 = .matched [] (some []) ∧
    pathMatches (base ++ [('*' :: wt)]) u2 = .noMatch := by
  have hmain := pmGo_wild ('*' :: wt) wt rfl base (base ++ [('*' :: wt)]) 0 []
    (fun j => by simp) hlit
  rw [pathMatches, h1, pathMatches, h2]
  exact ⟨hmain.1, hmain.2⟩

theorem C7_trailing_wildcard_witness :
    urlParseSimple (strL ("agi://h/a/")) =
      some ⟨strL ("agi"), strL ("h"), some [strL ("a"), []]⟩ ∧
    urlParseSimple (strL ("agi://h/a")) =
      some ⟨strL ("agi"), strL ("h"), some [strL ("a")]⟩ ∧
    pathMatches [strL ("a"), '*' :: strL ("w")]
        ⟨strL ("agi"), strL ("h"), some [strL ("a"), []]⟩ =
      .matched [] (some []) ∧
    pathMatches [strL ("a"), '*' :: strL ("w")]
        ⟨strL ("agi"), strL ("h"), some [strL ("a")]⟩ =
      .noMatch :=
  ⟨by decide, by decide,
   (C7_trailing_wildcard [strL ("a")] (strL ("w"))
     ⟨strL ("agi"), strL ("h"), some [strL ("a"), []]⟩
     ⟨strL ("agi"), strL ("h"), some [strL ("a")]⟩ (by decide) rfl rfl).1,
   (C7_trailing_wildcard [strL ("a")] (strL ("w"))
     ⟨strL ("agi"), strL ("h"), some [strL ("a"), []]⟩
     ⟨strL ("agi"), strL ("h"), some [strL ("a")]⟩ (by decide) rfl rfl).2⟩

/-- C8: `layer` wraps exactly the routes installed so far: the pattern
list and its order are unchanged, every installed handler is wrapped,
the fallback is untouched, and a route added after the `layer` call is
appended unwrapped. -/
theorem C8_layer_scope {H : Type} (wrap : H → H) (r : RouterM H) :
    (layerR wrap r).routes.map Prod.fst = r.routes.map Prod.fst ∧
    (layerR wrap r).routes.map Prod.snd = r.routes.map (fun p => wrap p.2) ∧
    (layerR wrap r).fallback = r.fallback ∧
    (∀ loc h r', routeR (layerR wrap r) loc h = some r' →
      ∃ segs, routeSegs loc = some segs ∧
        r'.routes = r.routes.map (fun p => (p.1, wrap p.2)) ++ [(segs, h)] ∧
        r'.fallback = r.fallback) := by
  refine ⟨?_, ?_, rfl, ?_⟩
  · rw [layerR]
    dsimp only
    rw [List.map_map]
    rfl
  · rw [layerR]
    dsimp only
    rw [List.map_map]
    rfl
  · intro loc h r' hr
    rw [routeR] at hr
    rcases hseg : routeSegs loc with _ | segs <;> rw [hseg] at hr
    · cases hr
    · injection hr with hr1
      refine ⟨segs, rfl, ?_, ?_⟩
      · rw [← hr1]
        rfl
      · rw [← hr1]
        rfl

theorem C8_layer_scope_witness :
    routeR (layerR Nat.succ (⟨[([strL ("a")], 1)], 7⟩ : RouterM Nat)) (strL ("/b")) 5 =
      some ⟨[([strL ("a")], 2), ([strL ("b")], 5)], 7⟩ ∧
    (∃ segs, routeSegs (strL ("/b")) = some segs ∧
      (⟨[([strL ("a")], 2), ([strL ("b")], 5)], 7⟩ : RouterM Nat).routes =
        ([([strL ("a")], 1)] : List (List Str × Nat)).map (fun p => (p.1, Nat.succ p.2)) ++
          [(segs, 5)] ∧
      (⟨[([strL ("a")], 2), ([strL ("b")], 5)], 7⟩ : RouterM Nat).fallback = 7) :=
  ⟨by decide,
   (C8_layer_scope Nat.succ ⟨[([strL ("a")], 1)], 7⟩).2.2.2 (strL ("/b")) 5
     ⟨[([strL ("a")], 2), ([strL ("b")], 5)], 7⟩ (by decide)⟩
